import Mathlib

/-!
# Verification of the bilingual content-normalization and server-rendering core

Shallow embedding of the serverless handlers in `functions/src/resume.ts`,
`functions/src/siteUrl.ts` and the sitemap handler, together with proofs about
the URL safety gate, bilingual fallback resolution, profile-link
deduplication, section normalization, language resolution and sitemap
`lastmod` selection.

The handlers call the host platform's WHATWG `URL` constructor, `Date`
parser and JavaScript string primitives.  Those platform primitives are
embedded here as executable Lean functions covering the fragment of their
behaviour the handlers exercise:

* `parseURL` / `serURL` follow the WHATWG basic URL parser for `http`/`https`
  URLs over ASCII input: scheme state, the special-authority slash skipping,
  host validation against the forbidden-host code points (with ASCII
  lowercasing), numeric port parsing with default-port elision, path
  segmentation with single/double-dot segment removal, and per-component
  percent-encode sets.  Not modelled (and not exercised by any input
  considered here): userinfo (`@` is treated as a parse failure, as it is a
  forbidden host code point in our host fragment), IDNA/punycode and
  IPv4/IPv6 host normalization (non-ASCII or bracketed hosts fail), removal
  of interior tab/newline characters before parsing, and UTF-8
  percent-encoding of non-ASCII code points (they are carried through
  unchanged).
* `parseDateMs` models the host `Date` parser on ISO `YYYY-MM-DD` date-only
  strings; all other strings are treated as unparsable.
* `jsTrim` / `lowerChars` model `String.prototype.trim` /  `toLowerCase`
  on the ASCII range plus the common Unicode whitespace code points.
-/

namespace Rosenau

abbrev Chars := List Char

/-- The backslash character, kept as a named constant. -/
def bslash : Char := Char.ofNat 92

/-- The apostrophe character, kept as a named constant. -/
def apos : Char := Char.ofNat 39

/-- Whitespace recognised by the model of `String.prototype.trim` (the ASCII
whitespace code points; `trim`'s additional Unicode whitespace code points
are outside the modelled fragment and are consistently neither trimmed nor
percent-encoded here). -/
def isJsWs (c : Char) : Bool :=
  c.toNat = 9 || c.toNat = 10 || c.toNat = 11 || c.toNat = 12 || c.toNat = 13 ||
  c.toNat = 32

/-- Drop JS whitespace from both ends of a character list. -/
def trimCharsL (cs : Chars) : Chars :=
  ((cs.dropWhile isJsWs).reverse.dropWhile isJsWs).reverse

/-- Model of `String.prototype.trim`. -/
def jsTrim (s : String) : String := String.mk (trimCharsL s.data)

/-- ASCII lowercasing of a single character (model of `toLowerCase` on the
inputs exercised here). -/
def lowerChar (c : Char) : Char :=
  if 65 ≤ c.toNat ∧ c.toNat ≤ 90 then Char.ofNat (c.toNat + 32) else c

def lowerChars (cs : Chars) : Chars := cs.map lowerChar

/-- Model of `String.prototype.toLowerCase`. -/
def strLower (s : String) : String := String.mk (lowerChars s.data)

/-- `isPrefixL p cs` holds when `p` is a prefix of `cs`. -/
def isPrefixL : Chars → Chars → Bool
  | [], _ => true
  | _ :: _, [] => false
  | p :: ps, c :: cs => p = c && isPrefixL ps cs

/-- Model of `String.prototype.includes` (substring search). -/
def containsL (p : Chars) : Chars → Bool
  | [] => p.isEmpty
  | c :: cs => isPrefixL p (c :: cs) || containsL p cs

def isSuffixL (p cs : Chars) : Bool := isPrefixL p.reverse cs.reverse

/-- `takeUntil p cs` returns the characters before the first character
satisfying `p`, and the rest including that character. -/
def takeUntil (p : Char → Bool) : Chars → Chars × Chars
  | [] => ([], [])
  | c :: cs =>
    if p c then ([], c :: cs)
    else
      let r := takeUntil p cs
      (c :: r.1, r.2)

/-- `splitFirst p cs` returns the characters before the first character
satisfying `p`, and — when found — the characters after it. -/
def splitFirst (p : Char → Bool) : Chars → Chars × Option Chars
  | [] => ([], none)
  | c :: cs =>
    if p c then ([], some cs)
    else
      let r := splitFirst p cs
      (c :: r.1, r.2)

/-! ## Firestore field values

Stored documents are loosely typed; a field value is absent/`null`/`undefined`
(modelled by `Option.none` at the use sites), a string, an array, a number, or
some other value.  `pick` (the source's helper) trims strings and collapses
everything else to the empty string. -/

inductive Val where
  | str (s : String)
  | list (xs : List Val)
  | num (n : Int)
  | other

/-- `pick` applied to a definite value. -/
def pickV : Val → String
  | .str s => jsTrim s
  | _ => ""

/-- Model of `pick(value)` for a possibly-absent value:
`typeof value === 'string' ? value.trim() : ''`. -/
def pickO : Option Val → String
  | some v => pickV v
  | none => ""

/-- Model of `pick` applied to a possibly-absent plain string (environment
variables and request headers). -/
def pickStr : Option String → String
  | some s => jsTrim s
  | none => ""

/-- Model of the `a ?? b` nullish-coalescing chain on stored field values
(`none` stands for `null`/`undefined`). -/
def orNull (a b : Option Val) : Option Val :=
  match a with
  | some v => some v
  | none => b

/-! ## WHATWG URL model (http/https fragment)

`new URL(value)` followed by the protocol check and `toString()` in
`safeUrl` is embedded by `parseURL`/`serURL` below. -/

inductive Scheme where
  | http
  | https
deriving DecidableEq

def Scheme.chars : Scheme → Chars
  | .http => ['h', 't', 't', 'p']
  | .https => ['h', 't', 't', 'p', 's']

def Scheme.defaultPort : Scheme → Nat
  | .http => 80
  | .https => 443

def isSchemeHead (c : Char) : Bool :=
  (97 ≤ c.toNat && c.toNat ≤ 122) || (65 ≤ c.toNat && c.toNat ≤ 90)

def isSchemeTail (c : Char) : Bool :=
  isSchemeHead c || (48 ≤ c.toNat && c.toNat ≤ 57) || c = '+' || c = '-' || c = '.'

def takeSchemeAux : Chars → Chars → Option (Chars × Chars)
  | _, [] => none
  | acc, c :: cs =>
    if c = ':' then some (acc.reverse, cs)
    else if isSchemeTail c then takeSchemeAux (c :: acc) cs
    else none

/-- Scheme state of the basic URL parser: an ASCII-letter head, scheme-tail
characters, then `:`; returns the raw scheme and the remaining input. -/
def takeScheme : Chars → Option (Chars × Chars)
  | [] => none
  | c :: cs => if isSchemeHead c then takeSchemeAux [c] cs else none

/-- A printable ASCII character that is not a forbidden host code point
(`# / : < > ? @ [ \ ] ^ |`, plus `%`, which is forbidden in our
non-percent-decoding host model). -/
def isHostChar (c : Char) : Bool :=
  33 ≤ c.toNat && c.toNat ≤ 126 &&
  !(c.toNat = 35 || c.toNat = 47 || c.toNat = 58 || c.toNat = 60 || c.toNat = 62 ||
    c.toNat = 63 || c.toNat = 64 || c.toNat = 91 || c.toNat = 92 || c.toNat = 93 ||
    c.toNat = 94 || c.toNat = 124 || c.toNat = 37)

/-- A host character as produced by `parseHost`: valid and not an ASCII
uppercase letter. -/
def isLowerHostChar (c : Char) : Bool :=
  isHostChar c && !(65 ≤ c.toNat && c.toNat ≤ 90)

/-- Host parsing for special schemes: non-empty, no forbidden code points,
ASCII-lowercased. -/
def parseHost (cs : Chars) : Option Chars :=
  if cs.isEmpty then none
  else if cs.all isHostChar then some (lowerChars cs) else none

def digitsToNat (cs : Chars) : Nat :=
  cs.foldl (fun a c => a * 10 + (c.toNat - 48)) 0

def isDigitChar (c : Char) : Bool := 48 ≤ c.toNat && c.toNat ≤ 57

def digitChar (n : Nat) : Char := Char.ofNat (48 + n)

def natToDigitsAux : Nat → Nat → Chars
  | 0, _ => []
  | fuel + 1, n => if n < 10 then [digitChar n] else natToDigitsAux fuel (n / 10) ++ [digitChar (n % 10)]

def natToDigits (n : Nat) : Chars := natToDigitsAux (n + 1) n

/-- Port state: empty port is elided, digits only, must fit in 16 bits, and
the scheme's default port is elided. -/
def parsePort (sch : Scheme) (cs : Chars) : Option (Option Nat) :=
  if cs.isEmpty then some none
  else if cs.all isDigitChar then
    let n := digitsToNat cs
    if 65536 ≤ n then none
    else if n = sch.defaultPort then some none
    else some (some n)
  else none

/-! ### Percent-encode sets -/

/-- C0-control percent-encode set restricted to ASCII (code points above
`0x7e` that are still ASCII, i.e. DEL; non-ASCII is carried through raw in
this model). -/
def inC0Set (c : Char) : Bool := c.toNat ≤ 31 || c.toNat = 127

/-- Fragment percent-encode set: C0 plus space, `"`, `<`, `>`, backtick. -/
def inFragSet (c : Char) : Bool :=
  inC0Set c || c.toNat = 32 || c.toNat = 34 || c.toNat = 60 || c.toNat = 62 ||
    c.toNat = 96

/-- Path percent-encode set: fragment set plus `#`, `?`, `{`, `}`. -/
def inPathSet (c : Char) : Bool :=
  inFragSet c || c.toNat = 35 || c.toNat = 63 || c.toNat = 123 || c.toNat = 125

/-- The special-scheme query percent-encode set: C0 plus space, `"`, `#`,
`<`, `>` and the apostrophe. -/
def inQuerySet (c : Char) : Bool :=
  inC0Set c || c.toNat = 32 || c.toNat = 34 || c.toNat = 35 || c.toNat = 60 ||
    c.toNat = 62 || c.toNat = 39

def hexDigit (n : Nat) : Char :=
  if n < 10 then Char.ofNat (48 + n) else Char.ofNat (55 + n)

def encodeChar (inSet : Char → Bool) (c : Char) : Chars :=
  if inSet c then ['%', hexDigit (c.toNat / 16), hexDigit (c.toNat % 16)] else [c]

def encodeList (inSet : Char → Bool) : Chars → Chars
  | [] => []
  | c :: cs => encodeChar inSet c ++ encodeList inSet cs

/-! ### Path segmentation and dot-segment removal -/

def isSlash (c : Char) : Bool := c.toNat = 47 || c.toNat = 92

/-- Split on `/` and `\` (the special-scheme path separators). -/
def splitSlashes : Chars → List Chars
  | [] => [[]]
  | c :: cs =>
    if isSlash c then [] :: splitSlashes cs
    else
      match splitSlashes cs with
      | [] => [[c]]
      | s :: ss => (c :: s) :: ss

def isSingleDot (seg : Chars) : Bool :=
  seg = ['.'] || lowerChars seg = ['%', '2', 'e']

def isDoubleDot (seg : Chars) : Bool :=
  seg = ['.', '.'] ||
  lowerChars seg = ['.', '%', '2', 'e'] ||
  lowerChars seg = ['%', '2', 'e', '.'] ||
  lowerChars seg = ['%', '2', 'e', '%', '2', 'e']

/-- Path state over pre-split segments.  The accumulator holds the path in
reverse; a double-dot segment pops, a trailing dot segment appends an empty
segment, mirroring the basic URL parser's buffer handling at `/`, `\`, and
end of input. -/
def procSegs : List Chars → List Chars → List Chars
  | stack, [] => stack.reverse
  | stack, seg :: rest =>
    let isLast := rest.isEmpty
    if isDoubleDot seg then
      let stack' := stack.tail
      procSegs (if isLast then [] :: stack' else stack') rest
    else if isSingleDot seg then
      procSegs (if isLast then [] :: stack else stack) rest
    else procSegs (seg :: stack) rest

def dropLeadSlash : Chars → Chars
  | [] => []
  | c :: cs => if isSlash c then cs else c :: cs

/-! ### The URL record, parser and serializer -/

structure HttpUrl where
  scheme : Scheme
  host : Chars
  port : Option Nat
  path : List Chars
  query : Option Chars
  fragment : Option Chars
deriving DecidableEq

def serPath : List Chars → Chars
  | [] => []
  | s :: ss => '/' :: (s ++ serPath ss)

def serPort : Option Nat → Chars
  | none => []
  | some n => ':' :: natToDigits n

def serQuery : Option Chars → Chars
  | none => []
  | some q => '?' :: q

def serFrag : Option Chars → Chars
  | none => []
  | some f => '#' :: f

/-- The URL serializer for http/https URLs. -/
def serURL (u : HttpUrl) : Chars :=
  u.scheme.chars ++ (':' :: '/' :: '/' :: u.host) ++ serPort u.port ++
  serPath u.path ++ serQuery u.query ++ serFrag u.fragment

def isAuthorityEnd (c : Char) : Bool := isSlash c || c = '?' || c = '#'

/-- The port part of an authority (`none` when no `:` was present). -/
def parsePortPart (sch : Scheme) : Option Chars → Option (Option Nat)
  | none => some none
  | some pcs => parsePort sch pcs

/-- Authority = host, optionally followed by `:` and a port. -/
def parseAuthority (sch : Scheme) (auth : Chars) : Option (Chars × Option Nat) :=
  let hp := splitFirst (fun c => c = ':') auth
  match parseHost hp.1 with
  | none => none
  | some host =>
    match parsePortPart sch hp.2 with
    | none => none
    | some port => some (host, port)

/-- Path, query and fragment of everything after the authority. -/
def parseTail (rest1 : Chars) : List Chars × Option Chars × Option Chars :=
  let hf := splitFirst (fun c => c = '#') rest1
  let pq := splitFirst (fun c => c = '?') hf.1
  (procSegs [] ((splitSlashes (dropLeadSlash pq.1)).map (encodeList inPathSet)),
   pq.2.map (encodeList inQuerySet),
   hf.2.map (encodeList inFragSet))

/-- Everything after `scheme:` for a special scheme: skip slashes, parse
authority (host and optional port), then path / query / fragment. -/
def parseHttpRest (sch : Scheme) (afterColon : Chars) : Option HttpUrl :=
  let ar := takeUntil isAuthorityEnd (afterColon.dropWhile isSlash)
  match parseAuthority sch ar.1 with
  | none => none
  | some hpp =>
    let t := parseTail ar.2
    some { scheme := sch, host := hpp.1, port := hpp.2,
           path := t.1, query := t.2.1, fragment := t.2.2 }

inductive ParsedUrl where
  | http (u : HttpUrl)
  | nonHttp (scheme : Chars)

/-- Model of `new URL(value)` restricted to what `safeUrl` observes: http and
https URLs are parsed in full; any other scheme only records that the
protocol is not http/https (such values are rejected by the gate whether or
not the host parser would accept the remainder). -/
def parseURL (cs : Chars) : Option ParsedUrl :=
  match takeScheme cs with
  | none => none
  | some (schRaw, rest) =>
    let schLower := lowerChars schRaw
    if schLower = ['h', 't', 't', 'p'] then (parseHttpRest .http rest).map .http
    else if schLower = ['h', 't', 't', 'p', 's'] then (parseHttpRest .https rest).map .http
    else some (.nonHttp schLower)

/-- `safeUrl` from `resume.ts`: parse, require an http/https protocol, and
return the canonical serialization. -/
def safeUrl (value : String) : Option String :=
  match parseURL value.data with
  | some (.http u) => some (String.mk (serURL u))
  | _ => none

/-- Model of the test `/^https?:\/\//i.test(raw)`. -/
def startsWithHttpSlashes (s : String) : Bool :=
  let l := lowerChars s.data
  isPrefixL ['h', 't', 't', 'p', ':', '/', '/'] l ||
  isPrefixL ['h', 't', 't', 'p', 's', ':', '/', '/'] l

/-- `toSafeUrl` from `resume.ts`: trim, reject empty, prepend `https://` when
the http(s)-scheme prefix test fails, then `safeUrl`. -/
def toSafeUrl (value : Option Val) : Option String :=
  let raw := pickO value
  if raw = "" then none
  else safeUrl (if startsWithHttpSlashes raw then raw else "https://" ++ raw)

/-! ## Site-origin resolution (`siteUrl.ts`) -/

def DEFAULT_SITE_URL : String := "https://rosenau.info"

/-- `URL.origin` for an http/https URL: scheme, host and non-default port,
no path. -/
def originOf (u : HttpUrl) : String :=
  String.mk (u.scheme.chars ++ (':' :: '/' :: '/' :: u.host) ++ serPort u.port)

/-- `value.split(',')[0]?.trim() || ''`. -/
def firstToken (v : String) : String :=
  jsTrim (String.mk (takeUntil (fun c => c = ',') v.data).1)

/-- `isPlaceholderHostname` from `siteUrl.ts`. -/
def isPlaceholderHostname (hostname : String) : Bool :=
  let normalized := strLower hostname
  normalized = "your-domain" ||
  containsL "your-domain".data normalized.data ||
  normalized = "yourdomain" ||
  (normalized = "example.com" || isSuffixL ".example.com".data normalized.data ||
   normalized = "example.org" || isSuffixL ".example.org".data normalized.data ||
   normalized = "example.net" || isSuffixL ".example.net".data normalized.data)

/-- `normalizeOrigin` from `siteUrl.ts`. -/
def normalizeOrigin (raw : String) (rejectPlaceholders : Bool) : String :=
  if raw = "" then ""
  else
    let candidate := if startsWithHttpSlashes raw then raw else "https://" ++ raw
    match parseURL candidate.data with
    | some (.http u) =>
      if rejectPlaceholders && isPlaceholderHostname (String.mk u.host) then ""
      else originOf u
    | _ => ""

/-! ## Requests

The parts of the Express request the handlers read: the `SITE_URL`
environment variable, the `x-forwarded-host` / `host` / `x-forwarded-proto`
headers, the `lang` query parameter (a string, an array, some other parsed
shape, or absent) and the `accept-language` header. -/

inductive QVal where
  | str (s : String)
  | vlist (xs : List QVal)
  | vother

structure Req where
  siteUrlEnv : Option String := none
  xForwardedHost : Option String := none
  hostHeader : Option String := none
  xForwardedProto : Option String := none
  queryLang : Option QVal := none
  acceptLanguage : Option String := none

def pickQ : Option QVal → String
  | some (.str s) => jsTrim s
  | _ => ""

/-- `Array.isArray(req.query.lang) ? req.query.lang[0] : req.query.lang`,
passed through `pick`. -/
def queryLangRaw : Option QVal → String
  | some (.vlist xs) => pickQ xs.head?
  | q => pickQ q

/-- The request-derived origin tier of `resolveSiteUrl` (split out of the
source's single function body; it reads only the three headers). -/
def hostTierOrigin (xfh hh xfp : Option String) : String :=
  let fwd := pickStr xfh
  let host := if fwd ≠ "" then fwd else pickStr hh
  let forwardedProto := strLower (firstToken (pickStr xfp))
  let protocol := if forwardedProto = "http" then "http" else "https"
  let requestOrigin :=
    normalizeOrigin (if host ≠ "" then protocol ++ "://" ++ host else "") false
  if requestOrigin ≠ "" then requestOrigin else DEFAULT_SITE_URL

/-- `resolveSiteUrl` from `siteUrl.ts`: configured origin (placeholder
rejecting), then the request-derived origin, then the default constant. -/
def resolveSiteUrl (req : Req) : String :=
  let configured := normalizeOrigin (pickStr req.siteUrlEnv) true
  if configured ≠ "" then configured
  else hostTierOrigin req.xForwardedHost req.hostHeader req.xForwardedProto

/-! ## Language resolution -/

inductive Lang where
  | en
  | ja
deriving DecidableEq

def startsWithL (p s : String) : Bool := isPrefixL p.data s.data

/-- `normalizeLanguage` from the current `resume.ts` (lines 82–88): decided
by the `lang` query parameter alone. -/
def normalizeLanguage (req : Req) : Lang :=
  let raw := strLower (queryLangRaw req.queryLang)
  if startsWithL "ja" raw then .ja
  else if startsWithL "en" raw then .en
  else .en

/-- `normalizeLanguage` from the legacy `resume.ts` variant (lines 742–750):
a `ja`-prefixed `lang` query wins, otherwise the `accept-language` header is
searched for `ja`. -/
def normalizeLanguageLegacy (req : Req) : Lang :=
  let raw := queryLangRaw req.queryLang
  if startsWithL "ja" (strLower raw) then .ja
  else if containsL "ja".data (strLower (pickStr req.acceptLanguage)).data then .ja
  else .en

/-- Modelled from the spec (§6, claim C3): explicit `lang` query parameter
prefix-matched case-insensitively against `ja`/`en` takes priority, then
`Accept-Language` containing `ja`, then `en`.  Stated only to compare the
code's two `normalizeLanguage` variants against the specified resolution. -/
def specLanguage (req : Req) : Lang :=
  let raw := strLower (queryLangRaw req.queryLang)
  if startsWithL "ja" raw then .ja
  else if startsWithL "en" raw then .en
  else if containsL "ja".data (strLower (pickStr req.acceptLanguage)).data then .ja
  else .en

/-! ## Text normalizers (`toList`, `toParagraphs` from `resume.ts`) -/

def splitOnPred (p : Char → Bool) : Chars → List Chars
  | [] => [[]]
  | c :: cs =>
    if p c then [] :: splitOnPred p cs
    else
      match splitOnPred p cs with
      | [] => [[c]]
      | s :: ss => (c :: s) :: ss

theorem dropWhile_length_le (p : Char → Bool) : ∀ l : Chars, (l.dropWhile p).length ≤ l.length := by
  intro l
  induction l with
  | nil => simp
  | cons c cs ih =>
    rw [List.dropWhile_cons]
    split
    · exact le_trans ih (by simp)
    · simp

/-- Split on runs of two or more newlines (`/\n{2,}/`). -/
def splitParaAux : Chars → Chars → List Chars
  | cur, '\n' :: '\n' :: rest => cur.reverse :: splitParaAux [] (rest.dropWhile (fun c => c = '\n'))
  | cur, c :: rest => splitParaAux (c :: cur) rest
  | cur, [] => [cur.reverse]
termination_by _ l => l.length
decreasing_by
  all_goals simp_wf
  all_goals (have hdw := dropWhile_length_le (fun c => c = '\n') rest; omega)

/-- `toParagraphs` from `resume.ts`. -/
def toParagraphs (v : Option Val) : List String :=
  ((splitParaAux [] (pickO v).data).map (fun cs => jsTrim (String.mk cs))).filter
    (fun s => s ≠ "")

/-- `toList` from `resume.ts`: a native array maps each entry through `pick`
and drops empties; anything else is `pick`ed and split on single newlines. -/
def toList (v : Option Val) : List String :=
  match v with
  | some (.list xs) => (xs.map pickV).filter (fun s => s ≠ "")
  | w =>
    ((splitOnPred (fun c => c = '\n') (pickO w).data).map
        (fun cs => jsTrim (String.mk cs))).filter (fun s => s ≠ "")

/-! ## Profile links -/

structure ProfileLink where
  label : String
  url : String
deriving DecidableEq

/-- `normalizeEntry` from `parseProfileLinks`: optional `label|url` split
(`split('|', 2)` keeps the first two components), URL gate, fallback label. -/
def normalizeEntry (entry : String) (fallbackLabel : String) : Option ProfileLink :=
  if entry = "" then none
  else
    let pair : String × String :=
      if containsL ['|'] entry.data then
        let r := splitFirst (fun c => c = '|') entry.data
        (jsTrim (String.mk r.1),
         jsTrim (String.mk (takeUntil (fun c => c = '|') (r.2.getD [])).1))
      else (fallbackLabel, jsTrim entry)
    match toSafeUrl (some (.str pair.2)) with
    | none => none
    | some url => some ⟨if pair.1 ≠ "" then pair.1 else fallbackLabel, url⟩

/-- `parseProfileLinks` from `resume.ts`.  The array path indexes fallback
labels over the pre-filter entry list; the string path splits on newline or
comma and filters before indexing, as in the source. -/
def parseProfileLinks (raw : Option Val) : List ProfileLink :=
  match raw with
  | some (.list xs) =>
    ((xs.map pickV).enum.map
        (fun p => normalizeEntry p.2 ("Profile " ++ toString (p.1 + 1)))).filterMap id
  | v =>
    let entries :=
      ((splitOnPred (fun c => c = '\n' || c = ',') (pickO v).data).map
          (fun cs => jsTrim (String.mk cs))).filter (fun s => s ≠ "")
    (entries.enum.map
        (fun p => normalizeEntry p.2 ("Profile " ++ toString (p.1 + 1)))).filterMap id

/-- `dedupeProfileLinks`: a `Map` keyed by URL keeps the first occurrence and
preserves insertion order. -/
def dedupeProfileLinks (links : List ProfileLink) : List ProfileLink :=
  links.foldl (fun acc l => if acc.any (fun x => x.url = l.url) then acc else acc ++ [l]) []

structure SiteRecord where
  name_en : Option Val := none
  name_ja : Option Val := none
  name : Option Val := none
  footerNote : Option Val := none
  footer_note : Option Val := none
  contactEmail : Option Val := none
  contact_email : Option Val := none
  email : Option Val := none
  githubUrl : Option Val := none
  github_url : Option Val := none
  github : Option Val := none
  linkedinUrl : Option Val := none
  linkedin_url : Option Val := none
  linkedin : Option Val := none
  xUrl : Option Val := none
  x_url : Option Val := none
  twitterUrl : Option Val := none
  twitter_url : Option Val := none
  twitter : Option Val := none
  website : Option Val := none
  websiteUrl : Option Val := none
  website_url : Option Val := none
  blogUrl : Option Val := none
  blog_url : Option Val := none
  blog : Option Val := none
  sameAs : Option Val := none
  same_as : Option Val := none
  profileLinks : Option Val := none
  profile_links : Option Val := none

/-- `profileLinks` from `resume.ts`: known single-purpose fields with fixed
labels, URL-gated, prepended to the generic parsed list, then deduplicated. -/
def profileLinks (site : Option SiteRecord) : List ProfileLink :=
  match site with
  | none => []
  | some s =>
    let known : List ProfileLink :=
      ([⟨"GitHub", (toSafeUrl (orNull s.githubUrl (orNull s.github_url s.github))).getD ""⟩,
        ⟨"LinkedIn", (toSafeUrl (orNull s.linkedinUrl (orNull s.linkedin_url s.linkedin))).getD ""⟩,
        ⟨"X", (toSafeUrl (orNull s.xUrl (orNull s.x_url (orNull s.twitterUrl (orNull s.twitter_url s.twitter))))).getD ""⟩,
        ⟨"Website", (toSafeUrl (orNull s.website (orNull s.websiteUrl s.website_url))).getD ""⟩,
        ⟨"Blog", (toSafeUrl (orNull s.blogUrl (orNull s.blog_url s.blog))).getD ""⟩]).filter
        (fun l => l.url ≠ "")
    let rawLinks :=
      parseProfileLinks (orNull s.sameAs (orNull s.same_as (orNull s.profileLinks s.profile_links)))
    dedupeProfileLinks (known ++ rawLinks)

/-! ## Résumé documents -/

structure ResumeSectionRecord where
  id : Option Val := none
  title_en : Option Val := none
  title_ja : Option Val := none
  title : Option Val := none
  items_en : Option Val := none
  items_ja : Option Val := none
  items : Option Val := none

/-- A stored résumé document.  `sections := none` models an absent or
non-array `sections` field; a non-object entry of the array behaves exactly
like the record with every field absent, so entries are modelled as records
directly. -/
structure ResumeRecord where
  url_en : Option Val := none
  url_ja : Option Val := none
  url : Option Val := none
  summary_en : Option Val := none
  summary_ja : Option Val := none
  summary : Option Val := none
  updatedAt : Option Val := none
  updated_at : Option Val := none
  ja_eta : Option Val := none
  eta_ja : Option Val := none
  jaTargetDate : Option Val := none
  sections : Option (List ResumeSectionRecord) := none

/-- The `primary` raw string of `preferredResumeUrl`. -/
def primaryRawUrl (d : ResumeRecord) (language : Lang) : String :=
  if language = .ja then pickO (orNull d.url_ja d.url) else pickO (orNull d.url_en d.url)

/-- The `fallback` raw string of `preferredResumeUrl`. -/
def fallbackRawUrl (d : ResumeRecord) (language : Lang) : String :=
  if language = .ja then pickO (orNull d.url_en d.url) else pickO (orNull d.url_ja d.url)

/-- `preferredResumeUrl` from `resume.ts`:
`safeUrl(primary) ?? safeUrl(fallback)`. -/
def preferredResumeUrl (doc : Option ResumeRecord) (language : Lang) : Option String :=
  match doc with
  | none => none
  | some d =>
    match safeUrl (primaryRawUrl d language) with
    | some u => some u
    | none => safeUrl (fallbackRawUrl d language)

/-- `summaryParagraphs` from `resume.ts`. -/
def summaryParagraphs (doc : Option ResumeRecord) (language : Lang) : List String :=
  match doc with
  | none => []
  | some d =>
    let localized :=
      if language = .ja then toParagraphs (orNull d.summary_ja d.summary)
      else toParagraphs (orNull d.summary_en d.summary)
    if 0 < localized.length then localized
    else if language = .ja then toParagraphs (orNull d.summary_en d.summary)
    else toParagraphs (orNull d.summary_ja d.summary)

structure NormalizedSection where
  id : String
  title : String
  items : List String
deriving DecidableEq

/-- The per-section body of `normalizeSections`' `map` callback. -/
def normalizeSectionEntry (language : Lang) (index : Nat)
    (s : ResumeSectionRecord) : NormalizedSection :=
  let titlePrimary :=
    if language = .ja then pickO (orNull s.title_ja s.title)
    else pickO (orNull s.title_en s.title)
  let titleFallback :=
    if language = .ja then pickO (orNull s.title_en s.title)
    else pickO (orNull s.title_ja s.title)
  let itemsPrimary :=
    if language = .ja then toList (orNull s.items_ja s.items)
    else toList (orNull s.items_en s.items)
  let itemsFallback :=
    if language = .ja then toList (orNull s.items_en s.items)
    else toList (orNull s.items_ja s.items)
  { id := if pickO s.id ≠ "" then pickO s.id else "section-" ++ toString index,
    title := if titlePrimary ≠ "" then titlePrimary else titleFallback,
    items := if 0 < itemsPrimary.length then itemsPrimary else itemsFallback }

/-- `normalizeSections` from `resume.ts`: map with the raw-list index, then
filter out sections whose resolved title and items are both empty. -/
def normalizeSections (doc : Option ResumeRecord) (language : Lang) :
    List NormalizedSection :=
  match doc with
  | none => []
  | some d =>
    match d.sections with
    | none => []
    | some secs =>
      ((secs.enum.map (fun p => normalizeSectionEntry language p.1 p.2)).filter
        (fun s => (s.title != "") || (s.items.length != 0)))

/-! ## The PDF redirect handler -/

inductive PdfResponse where
  | plainText (status : Nat) (body : String)
  | redirect (status : Nat) (location : String)
deriving DecidableEq

/-- `resumePdfHandler` from `resume.ts`, given the loaded document (`none`
when `public/resume` does not exist); the storage-failure path (500) is
outside this model. -/
def resumePdfResponse (doc : Option ResumeRecord) (req : Req) : PdfResponse :=
  let language := normalizeLanguage req
  match preferredResumeUrl doc language with
  | none => .plainText 404 "Resume PDF is not configured."
  | some url => .redirect 302 url

/-! ## Sitemap `lastmod` model

The sitemap handler's `dateMs`/`latestIsoDate`/`snapshotLastmod` over a
project document snapshot.  `TsVal` covers the value shapes `dateMs`
distinguishes: strings, finite numbers, `Date` objects (possibly invalid),
Firestore `Timestamp`s (objects with `toDate`), and any other value (which,
like every falsy value, yields no timestamp). -/

inductive TsVal where
  | str (s : String)
  | num (n : Int)
  | dateObj (ms : Option Int)
  | tsObj (ms : Int)
  | other

def isLeap (y : Nat) : Bool := (y % 4 == 0 && y % 100 != 0) || y % 400 == 0

def daysInMonth (y m : Nat) : Nat :=
  match m with
  | 1 => 31
  | 2 => if isLeap y then 29 else 28
  | 3 => 31
  | 4 => 30
  | 5 => 31
  | 6 => 30
  | 7 => 31
  | 8 => 31
  | 9 => 30
  | 10 => 31
  | 11 => 30
  | _ => 31

/-- Days since 1970-01-01 of a civil date (proleptic Gregorian). -/
def daysFromCivil (y : Int) (m d : Nat) : Int :=
  let y' := if m ≤ 2 then y - 1 else y
  let era := y'.fdiv 400
  let yoe := y' - era * 400
  let mp := (m + 9) % 12
  let doy : Int := (((153 * mp + 2) / 5 + d - 1 : Nat) : Int)
  let doe := yoe * 365 + yoe.fdiv 4 - yoe.fdiv 100 + doy
  era * 146097 + doe - 719468

/-- Civil date of a count of days since 1970-01-01. -/
def civilFromDays (z0 : Int) : Int × Nat × Nat :=
  let z := z0 + 719468
  let era := z.fdiv 146097
  let doe := (z - era * 146097).toNat
  let yoe := (doe - doe / 1460 + doe / 36524 - doe / 146096) / 365
  let y : Int := (yoe : Int) + era * 400
  let doy := doe - (365 * yoe + yoe / 4 - yoe / 100)
  let mp := (5 * doy + 2) / 153
  let d := doy - (153 * mp + 2) / 5 + 1
  let m := if mp < 10 then mp + 3 else mp - 9
  (if m ≤ 2 then y + 1 else y, m, d)

def pad2 (n : Nat) : String := if n < 10 then "0" ++ toString n else toString n

def pad4 (y : Int) : String :=
  let n := y.toNat
  (if n < 10 then "000" else if n < 100 then "00" else if n < 1000 then "0" else "") ++
    toString n

/-- Model of the host `Date` parser on ISO `YYYY-MM-DD` strings (all other
strings are unparsable in this model). -/
def parseDateMs (s : String) : Option Int :=
  match s.data with
  | [y1, y2, y3, y4, h1, m1, m2, h2, d1, d2] =>
    if h1 = '-' ∧ h2 = '-' ∧ [y1, y2, y3, y4, m1, m2, d1, d2].all isDigitChar then
      let y := digitsToNat [y1, y2, y3, y4]
      let m := digitsToNat [m1, m2]
      let d := digitsToNat [d1, d2]
      if 1 ≤ m ∧ m ≤ 12 ∧ 1 ≤ d ∧ d ≤ daysInMonth y m then
        some (86400000 * daysFromCivil (y : Int) m d)
      else none
    else none
  | _ => none

/-- `new Date(ms).toISOString().slice(0, 10)`. -/
def msToIsoDate (ms : Int) : String :=
  let t := civilFromDays (ms.fdiv 86400000)
  pad4 t.1 ++ "-" ++ pad2 t.2.1 ++ "-" ++ pad2 t.2.2

/-- `dateMs` from the sitemap handler.  Falsy values (`undefined`, `null`,
`''`, `0`, `NaN`, `false`) return `none` up front; `Date`s and
`Timestamp`-like objects yield their epoch milliseconds; finite numbers pass
through; strings go through the `Date` parser (after `pick`); any other value
degrades to `new Date('')`, which is invalid. -/
def dateMs : Option TsVal → Option Int
  | none => none
  | some (.str s) => if s = "" then none else parseDateMs (jsTrim s)
  | some (.num n) => if n = 0 then none else some n
  | some (.dateObj ms) => ms
  | some (.tsObj ms) => some ms
  | some .other => none

/-- `latestIsoDate`: the maximum over the parseable timestamp sources,
rendered as an ISO date; `none` when no source parses. -/
def latestIsoDate (vs : List (Option TsVal)) : Option String :=
  match vs.filterMap dateMs with
  | [] => none
  | t :: ts => some (msToIsoDate (ts.foldl max t))

/-- A project document snapshot: the storage-level timestamps and the
timestamp fields `loadProjectItems` passes to `snapshotLastmod`. -/
structure ProjectSnapshot where
  updateTime : Option TsVal := none
  createTime : Option TsVal := none
  updatedAt : Option TsVal := none
  updated_at : Option TsVal := none
  github_synced_at : Option TsVal := none
  github_updated_at : Option TsVal := none
  github_pushed_at : Option TsVal := none
  pushed_at : Option TsVal := none
  createdAt : Option TsVal := none
  created_at : Option TsVal := none

/-- The ordered timestamp sources of a project entry, as passed to
`latestIsoDate` by `snapshotLastmod` in `loadProjectItems`. -/
def tsSources (s : ProjectSnapshot) : List (Option TsVal) :=
  [s.updateTime, s.createTime, s.updatedAt, s.updated_at, s.github_synced_at,
   s.github_updated_at, s.github_pushed_at, s.pushed_at, s.createdAt, s.created_at]

def snapshotLastmod (s : ProjectSnapshot) : Option String :=
  latestIsoDate (tsSources s)

/-- A project entry's `lastmod`: `snapshotLastmod(doc, ...fields) ?? fallbackDate`. -/
def projectLastmod (s : ProjectSnapshot) (fallbackDate : String) : String :=
  (snapshotLastmod s).getD fallbackDate

/-! ## Character-level lemmas for the URL round-trip -/

theorem char_ascii_cases (P : Char → Prop) (c : Char) (hb : c.toNat < 128)
    (h : ∀ n : Nat, n < 128 → P (Char.ofNat n)) : P c := by
  have hn := h c.toNat hb
  rwa [Char.ofNat_toNat] at hn

theorem isHostChar_bound {c : Char} (h : isHostChar c = true) : c.toNat < 128 := by
  simp only [isHostChar, Bool.and_eq_true, decide_eq_true_eq] at h
  omega

theorem isLowerHostChar_isHostChar {c : Char} (h : isLowerHostChar c = true) :
    isHostChar c = true := by
  simp only [isLowerHostChar, Bool.and_eq_true] at h
  exact h.1

theorem lowerChar_isLowerHostChar {c : Char} (h : isHostChar c = true) :
    isLowerHostChar (lowerChar c) = true :=
  char_ascii_cases
    (fun c => isHostChar c = true → isLowerHostChar (lowerChar c) = true)
    c (isHostChar_bound h) (by decide) h

theorem lowerChar_fixed {c : Char} (h : isLowerHostChar c = true) :
    lowerChar c = c := by
  have h2 : ¬(65 ≤ c.toNat ∧ c.toNat ≤ 90) := by
    simp only [isLowerHostChar, Bool.and_eq_true, Bool.not_eq_true',
      Bool.and_eq_false_iff, decide_eq_false_iff_not] at h
    rcases h.2 with h2 | h2 <;> omega
  simp [lowerChar, h2]

theorem decide_char_eq_false {c d : Char} (k : Nat) (hd : d.toNat = k)
    (h : c.toNat ≠ k) : decide (c = d) = false :=
  decide_eq_false (fun he => h (hd ▸ congrArg Char.toNat he))

/-- The arithmetic content of `isLowerHostChar`. -/
theorem isLowerHostChar_toNat {c : Char} (h : isLowerHostChar c = true) :
    33 ≤ c.toNat ∧ c.toNat ≤ 126 ∧ c.toNat ≠ 35 ∧ c.toNat ≠ 47 ∧ c.toNat ≠ 58 ∧
    c.toNat ≠ 60 ∧ c.toNat ≠ 62 ∧ c.toNat ≠ 63 ∧ c.toNat ≠ 64 ∧ c.toNat ≠ 91 ∧
    c.toNat ≠ 92 ∧ c.toNat ≠ 93 ∧ c.toNat ≠ 94 ∧ c.toNat ≠ 124 ∧ c.toNat ≠ 37 := by
  simp only [isLowerHostChar, isHostChar, Bool.and_eq_true, Bool.not_eq_true',
    Bool.or_eq_false_iff, decide_eq_false_iff_not, decide_eq_true_eq] at h
  omega

theorem isLowerHostChar_not_ws {c : Char} (h : isLowerHostChar c = true) :
    isJsWs c = false := by
  have := isLowerHostChar_toNat h
  simp only [isJsWs, Bool.or_eq_false_iff, decide_eq_false_iff_not]
  omega

theorem isLowerHostChar_not_slash {c : Char} (h : isLowerHostChar c = true) :
    isSlash c = false := by
  have := isLowerHostChar_toNat h
  simp only [isSlash, Bool.or_eq_false_iff, decide_eq_false_iff_not]
  omega

theorem isLowerHostChar_not_authEnd {c : Char} (h : isLowerHostChar c = true) :
    isAuthorityEnd c = false := by
  have ht := isLowerHostChar_toNat h
  simp only [isAuthorityEnd, Bool.or_eq_false_iff]
  refine ⟨⟨isLowerHostChar_not_slash h, ?_⟩, ?_⟩
  · exact decide_char_eq_false 63 rfl (by omega)
  · exact decide_char_eq_false 35 rfl (by omega)

theorem isLowerHostChar_not_colon {c : Char} (h : isLowerHostChar c = true) :
    decide (c = ':') = false :=
  decide_char_eq_false 58 rfl (by have := isLowerHostChar_toNat h; omega)

theorem isDigitChar_toNat {c : Char} (h : isDigitChar c = true) :
    48 ≤ c.toNat ∧ c.toNat ≤ 57 := by
  simp only [isDigitChar, Bool.and_eq_true, decide_eq_true_eq] at h
  exact h

theorem isDigitChar_not_ws {c : Char} (h : isDigitChar c = true) :
    isJsWs c = false := by
  have := isDigitChar_toNat h
  simp only [isJsWs, Bool.or_eq_false_iff, decide_eq_false_iff_not]
  omega

theorem isDigitChar_not_authEnd {c : Char} (h : isDigitChar c = true) :
    isAuthorityEnd c = false := by
  have ht := isDigitChar_toNat h
  simp only [isAuthorityEnd, isSlash, Bool.or_eq_false_iff]
  refine ⟨⟨⟨?_, ?_⟩, ?_⟩, ?_⟩
  · exact decide_eq_false (by omega)
  · exact decide_eq_false (by omega)
  · exact decide_char_eq_false 63 rfl (by omega)
  · exact decide_char_eq_false 35 rfl (by omega)

theorem not_inPathSet_toNat {c : Char} (h : inPathSet c = false) :
    ¬(c.toNat ≤ 31) ∧ c.toNat ≠ 127 ∧ c.toNat ≠ 32 ∧ c.toNat ≠ 34 ∧ c.toNat ≠ 60 ∧
    c.toNat ≠ 62 ∧ c.toNat ≠ 96 ∧ c.toNat ≠ 35 ∧ c.toNat ≠ 63 ∧ c.toNat ≠ 123 ∧
    c.toNat ≠ 125 := by
  simp only [inPathSet, inFragSet, inC0Set, Bool.or_eq_false_iff,
    decide_eq_false_iff_not] at h
  omega

theorem not_inPathSet_not_ws {c : Char} (h : inPathSet c = false) :
    isJsWs c = false := by
  have := not_inPathSet_toNat h
  simp only [isJsWs, Bool.or_eq_false_iff, decide_eq_false_iff_not]
  omega

theorem not_inQuerySet_toNat {c : Char} (h : inQuerySet c = false) :
    ¬(c.toNat ≤ 31) ∧ c.toNat ≠ 127 ∧ c.toNat ≠ 32 ∧ c.toNat ≠ 34 ∧
    c.toNat ≠ 35 ∧ c.toNat ≠ 60 ∧ c.toNat ≠ 62 ∧ c.toNat ≠ 39 := by
  simp only [inQuerySet, inC0Set, Bool.or_eq_false_iff, decide_eq_false_iff_not] at h
  omega

theorem not_inQuerySet_not_ws {c : Char} (h : inQuerySet c = false) :
    isJsWs c = false := by
  have := not_inQuerySet_toNat h
  simp only [isJsWs, Bool.or_eq_false_iff, decide_eq_false_iff_not]
  omega

theorem not_inFragSet_not_ws {c : Char} (h : inFragSet c = false) :
    isJsWs c = false := by
  simp only [inFragSet, inC0Set, Bool.or_eq_false_iff, decide_eq_false_iff_not] at h
  simp only [isJsWs, Bool.or_eq_false_iff, decide_eq_false_iff_not]
  omega

/-! ## Splitter lemmas -/

theorem takeUntil_hit (p : Char → Bool) {c : Char} (h : p c = true) (l : Chars) :
    takeUntil p (c :: l) = ([], c :: l) := by
  simp [takeUntil, h]

theorem takeUntil_clean_append (p : Char → Bool) :
    ∀ xs : Chars, (∀ c ∈ xs, p c = false) → ∀ ys,
      takeUntil p (xs ++ ys) = (xs ++ (takeUntil p ys).1, (takeUntil p ys).2) := by
  intro xs
  induction xs with
  | nil => intro _ ys; simp
  | cons c cs ih =>
    intro h ys
    have hc : p c = false := h c (List.mem_cons_self _ _)
    have := ih (fun d hd => h d (List.mem_cons_of_mem _ hd)) ys
    simp [takeUntil, hc, this]

theorem splitFirst_hit (p : Char → Bool) {c : Char} (h : p c = true) (l : Chars) :
    splitFirst p (c :: l) = ([], some l) := by
  simp [splitFirst, h]

theorem splitFirst_clean_append (p : Char → Bool) :
    ∀ xs : Chars, (∀ c ∈ xs, p c = false) → ∀ ys,
      splitFirst p (xs ++ ys) = (xs ++ (splitFirst p ys).1, (splitFirst p ys).2) := by
  intro xs
  induction xs with
  | nil => intro _ ys; simp
  | cons c cs ih =>
    intro h ys
    have hc : p c = false := h c (List.mem_cons_self _ _)
    have := ih (fun d hd => h d (List.mem_cons_of_mem _ hd)) ys
    simp [splitFirst, hc, this]

theorem splitFirst_clean (p : Char → Bool) (xs : Chars) (h : ∀ c ∈ xs, p c = false) :
    splitFirst p xs = (xs, none) := by
  have := splitFirst_clean_append p xs h []
  simpa [splitFirst] using this

theorem dropWhile_eq_of_all_false (p : Char → Bool) (l : Chars)
    (h : ∀ c ∈ l, p c = false) : l.dropWhile p = l := by
  cases l with
  | nil => rfl
  | cons c cs =>
    rw [List.dropWhile_cons, if_neg]
    simp [h c (List.mem_cons_self _ _)]

theorem trimCharsL_eq_of_no_ws (l : Chars) (h : ∀ c ∈ l, isJsWs c = false) :
    trimCharsL l = l := by
  unfold trimCharsL
  rw [dropWhile_eq_of_all_false _ l h,
    dropWhile_eq_of_all_false _ l.reverse (fun c hc => h c (List.mem_reverse.mp hc)),
    List.reverse_reverse]

theorem splitSlashes_no_slash_mem :
    ∀ cs : Chars, ∀ s ∈ splitSlashes cs, ∀ c ∈ s, isSlash c = false := by
  intro cs
  induction cs with
  | nil =>
    intro s hs c hc
    simp only [splitSlashes, List.mem_singleton] at hs
    subst hs; cases hc
  | cons d ds ih =>
    intro s hs c hc
    by_cases hd : isSlash d
    · simp only [splitSlashes, if_pos hd, List.mem_cons] at hs
      rcases hs with rfl | hs
      · cases hc
      · exact ih s hs c hc
    · simp only [splitSlashes, if_neg hd] at hs
      cases hsp : splitSlashes ds with
      | nil =>
        rw [hsp] at hs
        simp only [List.mem_singleton] at hs
        subst hs
        rcases List.mem_cons.mp hc with rfl | hcc
        · simpa using hd
        · cases hcc
      | cons t ts =>
        rw [hsp] at hs
        rcases List.mem_cons.mp hs with rfl | hs
        · rcases List.mem_cons.mp hc with rfl | hcc
          · simpa using hd
          · exact ih t (by rw [hsp]; exact List.mem_cons_self _ _) c hcc
        · exact ih s (by rw [hsp]; exact List.mem_cons_of_mem _ hs) c hc

theorem splitSlashes_ne_nil : ∀ cs : Chars, splitSlashes cs ≠ [] := by
  intro cs
  cases cs with
  | nil => simp [splitSlashes]
  | cons c cs' =>
    by_cases hc : isSlash c
    · simp [splitSlashes, hc]
    · simp only [splitSlashes, if_neg hc]
      cases h : splitSlashes cs' <;> simp

theorem splitSlashes_of_no_slash (s : Chars) (h : ∀ c ∈ s, isSlash c = false) :
    splitSlashes s = [s] := by
  induction s with
  | nil => rfl
  | cons c cs ih =>
    have hc : isSlash c = false := h c (List.mem_cons_self _ _)
    have := ih (fun d hd => h d (List.mem_cons_of_mem _ hd))
    simp [splitSlashes, hc, this]

theorem splitSlashes_append_slash (s t : Chars) (hs : ∀ c ∈ s, isSlash c = false) :
    splitSlashes (s ++ '/' :: t) = s :: splitSlashes t := by
  induction s with
  | nil => simp [splitSlashes, isSlash]
  | cons c cs ih =>
    have hc : isSlash c = false := hs c (List.mem_cons_self _ _)
    have hr := ih (fun d hd => hs d (List.mem_cons_of_mem _ hd))
    show splitSlashes (c :: (cs ++ '/' :: t)) = (c :: cs) :: splitSlashes t
    rw [splitSlashes, if_neg (by simp [hc]), hr]

/-! ## Encoder, path-segment and digit lemmas -/

theorem hexDigit_props : ∀ k, k < 16 →
    inPathSet (hexDigit k) = false ∧ inQuerySet (hexDigit k) = false ∧
    inFragSet (hexDigit k) = false ∧ isSlash (hexDigit k) = false ∧
    isJsWs (hexDigit k) = false := by decide

theorem pct_props :
    inPathSet '%' = false ∧ inQuerySet '%' = false ∧ inFragSet '%' = false ∧
    isSlash '%' = false ∧ isJsWs '%' = false := by decide

theorem inPathSet_bound {c : Char} (h : inPathSet c = true) : c.toNat < 256 := by
  simp only [inPathSet, inFragSet, inC0Set, Bool.or_eq_true, decide_eq_true_eq] at h
  omega

theorem inQuerySet_bound {c : Char} (h : inQuerySet c = true) : c.toNat < 256 := by
  simp only [inQuerySet, inC0Set, Bool.or_eq_true, decide_eq_true_eq] at h
  omega

theorem inFragSet_bound {c : Char} (h : inFragSet c = true) : c.toNat < 256 := by
  simp only [inFragSet, inC0Set, Bool.or_eq_true, decide_eq_true_eq] at h
  omega

/-- Every character of an encoded list satisfies `Q = false`, provided `%`
and hex digits do, and unencoded characters do. -/
theorem encodeList_all (S Q : Char → Bool)
    (hbound : ∀ c, S c = true → c.toNat < 256)
    (hpct : Q '%' = false)
    (hhex : ∀ k, k < 16 → Q (hexDigit k) = false) :
    ∀ cs : Chars, (∀ c ∈ cs, S c = false → Q c = false) →
      ∀ c' ∈ encodeList S cs, Q c' = false := by
  intro cs
  induction cs with
  | nil => intro _ c' hc'; cases hc'
  | cons c cs ih =>
    intro hcs c' hc'
    rcases List.mem_append.mp hc' with hm | hm
    · by_cases hS : S c = true
      · have he : encodeChar S c = ['%', hexDigit (c.toNat / 16), hexDigit (c.toNat % 16)] := by
          simp [encodeChar, hS]
        rw [he] at hm
        have hb : c.toNat < 256 := hbound c hS
        rcases List.mem_cons.mp hm with rfl | hm
        · exact hpct
        · rcases List.mem_cons.mp hm with rfl | hm
          · exact hhex _ (by omega)
          · rcases List.mem_cons.mp hm with rfl | hm
            · exact hhex _ (by omega)
            · cases hm
      · have hS' : S c = false := by simpa using hS
        have he : encodeChar S c = [c] := by simp [encodeChar, hS']
        rw [he] at hm
        rcases List.mem_singleton.mp hm with rfl
        exact hcs _ (List.mem_cons_self _ _) hS'
    · exact ih (fun d hd => hcs d (List.mem_cons_of_mem _ hd)) c' hm

theorem encodeList_id (S : Char → Bool) :
    ∀ cs : Chars, (∀ c ∈ cs, S c = false) → encodeList S cs = cs := by
  intro cs
  induction cs with
  | nil => intro _; rfl
  | cons c cs ih =>
    intro h
    have hc : S c = false := h c (List.mem_cons_self _ _)
    have he : encodeChar S c = [c] := by simp [encodeChar, hc]
    show encodeChar S c ++ encodeList S cs = c :: cs
    rw [he, ih (fun d hd => h d (List.mem_cons_of_mem _ hd))]
    rfl

/-- A well-formed path segment: no path-set characters, no slashes, and not a
(single or double) dot segment. -/
def goodSeg (s : Chars) : Prop :=
  (∀ c ∈ s, inPathSet c = false ∧ isSlash c = false) ∧
  isSingleDot s = false ∧ isDoubleDot s = false

theorem goodSeg_nil : goodSeg [] :=
  ⟨fun c hc => absurd hc (List.not_mem_nil c), by decide, by decide⟩

theorem procSegs_good :
    ∀ l stack : List Chars,
      (∀ s ∈ stack, goodSeg s) →
      (∀ s ∈ l, ∀ c ∈ s, inPathSet c = false ∧ isSlash c = false) →
      ∀ s ∈ procSegs stack l, goodSeg s := by
  intro l
  induction l with
  | nil =>
    intro stack hstack _ s hs
    exact hstack s (List.mem_reverse.mp hs)
  | cons seg rest ih =>
    intro stack hstack hl s hs
    have htail : ∀ t ∈ stack.tail, goodSeg t :=
      fun t ht => hstack t (List.mem_of_mem_tail ht)
    have hrest : ∀ t ∈ rest, ∀ c ∈ t, inPathSet c = false ∧ isSlash c = false :=
      fun t ht => hl t (List.mem_cons_of_mem _ ht)
    revert hs
    simp only [procSegs]
    by_cases hdd : isDoubleDot seg
    · rw [if_pos (by simp [hdd])]
      intro hs
      refine ih _ ?_ hrest s hs
      by_cases hle : rest.isEmpty <;> simp only [hle, if_pos, if_neg, if_true, if_false]
      · intro t ht
        rcases List.mem_cons.mp ht with rfl | ht
        · exact goodSeg_nil
        · exact htail t ht
      · exact htail
    · rw [if_neg (by simp [hdd])]
      by_cases hsd : isSingleDot seg
      · rw [if_pos (by simp [hsd])]
        intro hs
        refine ih _ ?_ hrest s hs
        by_cases hle : rest.isEmpty <;> simp only [hle, if_true, if_false]
        · intro t ht
          rcases List.mem_cons.mp ht with rfl | ht
          · exact goodSeg_nil
          · exact hstack t ht
        · exact hstack
      · rw [if_neg (by simp [hsd])]
        intro hs
        refine ih _ ?_ hrest s hs
        intro t ht
        rcases List.mem_cons.mp ht with rfl | ht
        · exact ⟨hl t (List.mem_cons_self _ _), by simpa using hsd, by simpa using hdd⟩
        · exact hstack t ht

theorem procSegs_nil (stack : List Chars) : procSegs stack [] = stack.reverse := rfl

theorem procSegs_cons (stack : List Chars) (seg : Chars) (rest : List Chars) :
    procSegs stack (seg :: rest) =
      if isDoubleDot seg then
        procSegs (if rest.isEmpty then [] :: stack.tail else stack.tail) rest
      else if isSingleDot seg then
        procSegs (if rest.isEmpty then [] :: stack else stack) rest
      else procSegs (seg :: stack) rest := rfl

theorem procSegs_ne_nil : ∀ l stack : List Chars, l ≠ [] → procSegs stack l ≠ [] := by
  intro l
  induction l with
  | nil => intro stack h; exact absurd rfl h
  | cons seg rest ih =>
    intro stack _
    rw [procSegs_cons]
    cases rest with
    | nil =>
      by_cases hdd : isDoubleDot seg
      · rw [if_pos (by simp [hdd])]
        simp [procSegs_nil]
      · rw [if_neg (by simp [hdd])]
        by_cases hsd : isSingleDot seg
        · rw [if_pos (by simp [hsd])]
          simp [procSegs_nil]
        · rw [if_neg (by simp [hsd])]
          simp [procSegs_nil]
    | cons r rs =>
      have hne : r :: rs ≠ [] := by simp
      by_cases hdd : isDoubleDot seg
      · rw [if_pos (by simp [hdd])]
        exact ih _ hne
      · rw [if_neg (by simp [hdd])]
        by_cases hsd : isSingleDot seg
        · rw [if_pos (by simp [hsd])]
          exact ih _ hne
        · rw [if_neg (by simp [hsd])]
          exact ih _ hne

theorem procSegs_no_dots :
    ∀ l stack : List Chars,
      (∀ s ∈ l, isSingleDot s = false ∧ isDoubleDot s = false) →
      procSegs stack l = stack.reverse ++ l := by
  intro l
  induction l with
  | nil => intro stack _; simp [procSegs]
  | cons seg rest ih =>
    intro stack hl
    have hseg := hl seg (List.mem_cons_self _ _)
    simp only [procSegs]
    rw [if_neg (by simp [hseg.2]), if_neg (by simp [hseg.1])]
    rw [ih (seg :: stack) (fun t ht => hl t (List.mem_cons_of_mem _ ht))]
    simp

theorem mem_serPath :
    ∀ (segs : List Chars) (c : Char), c ∈ serPath segs →
      c = '/' ∨ ∃ s ∈ segs, c ∈ s := by
  intro segs
  induction segs with
  | nil => intro c hc; cases hc
  | cons s ss ih =>
    intro c hc
    simp only [serPath] at hc
    rcases List.mem_cons.mp hc with rfl | hc
    · exact Or.inl rfl
    · rcases List.mem_append.mp hc with hc | hc
      · exact Or.inr ⟨s, List.mem_cons_self _ _, hc⟩
      · rcases ih c hc with h | ⟨t, ht, hct⟩
        · exact Or.inl h
        · exact Or.inr ⟨t, List.mem_cons_of_mem _ ht, hct⟩

theorem digitChar_facts : ∀ m, m < 10 →
    (digitChar m).toNat = 48 + m ∧ isDigitChar (digitChar m) = true := by decide

theorem digitsToNat_append_one (xs : Chars) (c : Char) :
    digitsToNat (xs ++ [c]) = digitsToNat xs * 10 + (c.toNat - 48) := by
  simp [digitsToNat, List.foldl_append]

theorem natToDigitsAux_spec : ∀ fuel n, n < fuel →
    natToDigitsAux fuel n ≠ [] ∧ (∀ c ∈ natToDigitsAux fuel n, isDigitChar c = true) ∧
    digitsToNat (natToDigitsAux fuel n) = n := by
  intro fuel
  induction fuel with
  | zero => intro n h; omega
  | succ f ih =>
    intro n h
    by_cases h10 : n < 10
    · simp only [natToDigitsAux, if_pos h10]
      have hd := digitChar_facts n h10
      refine ⟨by simp, ?_, ?_⟩
      · intro c hc
        rcases List.mem_singleton.mp hc with rfl
        exact hd.2
      · simp [digitsToNat, hd.1]
    · simp only [natToDigitsAux, if_neg h10]
      have hrec : n / 10 < f := by
        have : n / 10 < n := Nat.div_lt_self (by omega) (by omega)
        omega
      obtain ⟨hne, hall, hval⟩ := ih (n / 10) hrec
      have hd := digitChar_facts (n % 10) (Nat.mod_lt _ (by omega))
      refine ⟨by simp, ?_, ?_⟩
      · intro c hc
        rcases List.mem_append.mp hc with hc | hc
        · exact hall c hc
        · rcases List.mem_singleton.mp hc with rfl
          exact hd.2
      · rw [digitsToNat_append_one, hval, hd.1]
        omega

theorem natToDigits_spec (n : Nat) :
    natToDigits n ≠ [] ∧ (∀ c ∈ natToDigits n, isDigitChar c = true) ∧
    digitsToNat (natToDigits n) = n :=
  natToDigitsAux_spec (n + 1) n (by omega)

/-! ## Well-formedness of parsed URLs -/

/-- The invariant every URL produced by the parser satisfies, strong enough
to make serialization followed by re-parsing the identity. -/
def URLWF (u : HttpUrl) : Prop :=
  u.host ≠ [] ∧ (∀ c ∈ u.host, isLowerHostChar c = true) ∧
  (∀ n, u.port = some n → n < 65536 ∧ n ≠ u.scheme.defaultPort) ∧
  u.path ≠ [] ∧ (∀ s ∈ u.path, goodSeg s) ∧
  (∀ q, u.query = some q → ∀ c ∈ q, inQuerySet c = false) ∧
  (∀ f, u.fragment = some f → ∀ c ∈ f, inFragSet c = false)

theorem lowerChars_fixed {l : Chars} (h : ∀ c ∈ l, isLowerHostChar c = true) :
    lowerChars l = l := by
  induction l with
  | nil => rfl
  | cons c cs ih =>
    show lowerChar c :: lowerChars cs = c :: cs
    rw [lowerChar_fixed (h c (List.mem_cons_self _ _)),
      ih (fun d hd => h d (List.mem_cons_of_mem _ hd))]

theorem parseHost_wf {cs host : Chars} (h : parseHost cs = some host) :
    host ≠ [] ∧ ∀ c ∈ host, isLowerHostChar c = true := by
  unfold parseHost at h
  by_cases hne : cs.isEmpty = true
  · rw [if_pos hne] at h; cases h
  · rw [if_neg hne] at h
    by_cases hall : cs.all isHostChar = true
    · rw [if_pos hall] at h
      injection h with h
      subst h
      constructor
      · simp only [lowerChars, ne_eq, List.map_eq_nil_iff]
        simpa [List.isEmpty_eq_false] using hne
      · intro c hc
        rcases List.mem_map.mp hc with ⟨d, hd, rfl⟩
        exact lowerChar_isLowerHostChar (List.all_eq_true.mp hall d hd)
    · rw [if_neg hall] at h; cases h

theorem parseHost_of_lower {host : Chars} (hne : host ≠ [])
    (h : ∀ c ∈ host, isLowerHostChar c = true) : parseHost host = some host := by
  unfold parseHost
  rw [if_neg (by simp [List.isEmpty_eq_false, hne]),
    if_pos (List.all_eq_true.mpr (fun c hc => isLowerHostChar_isHostChar (h c hc)))]
  rw [lowerChars_fixed h]

theorem parsePort_wf {sch : Scheme} {cs : Chars} {port : Option Nat}
    (h : parsePort sch cs = some port) :
    ∀ n, port = some n → n < 65536 ∧ n ≠ sch.defaultPort := by
  intro n hn
  unfold parsePort at h
  by_cases he : cs.isEmpty = true
  · rw [if_pos he] at h
    injection h with h
    rw [← h] at hn
    cases hn
  · rw [if_neg he] at h
    by_cases hall : cs.all isDigitChar = true
    · rw [if_pos hall] at h
      by_cases hbig : 65536 ≤ digitsToNat cs
      · rw [if_pos hbig] at h; cases h
      · rw [if_neg hbig] at h
        by_cases hdef : digitsToNat cs = sch.defaultPort
        · rw [if_pos hdef] at h
          injection h with h
          rw [← h] at hn
          cases hn
        · rw [if_neg hdef] at h
          injection h with h
          rw [← h] at hn
          injection hn with hn
          subst hn
          exact ⟨by omega, hdef⟩
    · rw [if_neg hall] at h; cases h

theorem parseAuthority_wf {sch : Scheme} {auth host : Chars} {port : Option Nat}
    (h : parseAuthority sch auth = some (host, port)) :
    host ≠ [] ∧ (∀ c ∈ host, isLowerHostChar c = true) ∧
    (∀ n, port = some n → n < 65536 ∧ n ≠ sch.defaultPort) := by
  simp only [parseAuthority] at h
  cases hh : parseHost (splitFirst (fun c => c = ':') auth).1 with
  | none => rw [hh] at h; cases h
  | some host' =>
    rw [hh] at h
    cases hp : parsePortPart sch (splitFirst (fun c => c = ':') auth).2 with
    | none => rw [hp] at h; cases h
    | some port' =>
      rw [hp] at h
      injection h with h
      have h1 : host' = host := congrArg Prod.fst h
      have h2 : port' = port := congrArg Prod.snd h
      subst h1
      subst h2
      obtain ⟨hne, hlow⟩ := parseHost_wf hh
      refine ⟨hne, hlow, ?_⟩
      cases hsp : (splitFirst (fun c => c = ':') auth).2 with
      | none =>
        rw [hsp] at hp
        injection hp with hp
        intro n hn
        rw [← hp] at hn
        cases hn
      | some pcs =>
        rw [hsp] at hp
        exact parsePort_wf hp

theorem parseTail_wf (rest1 : Chars) :
    (parseTail rest1).1 ≠ [] ∧ (∀ s ∈ (parseTail rest1).1, goodSeg s) ∧
    (∀ q, (parseTail rest1).2.1 = some q → ∀ c ∈ q, inQuerySet c = false) ∧
    (∀ f, (parseTail rest1).2.2 = some f → ∀ c ∈ f, inFragSet c = false) := by
  simp only [parseTail]
  refine ⟨?_, ?_, ?_, ?_⟩
  · exact procSegs_ne_nil _ _ (by
      simp only [ne_eq, List.map_eq_nil_iff]
      exact splitSlashes_ne_nil _)
  · refine procSegs_good _ _ (fun s hs => absurd hs (List.not_mem_nil s)) ?_
    intro s hs c hc
    rcases List.mem_map.mp hs with ⟨raw, hraw, rfl⟩
    constructor
    · exact encodeList_all inPathSet inPathSet (fun _ hb => inPathSet_bound hb)
        pct_props.1 (fun k hk => (hexDigit_props k hk).1) raw (fun _ _ hx => hx) c hc
    · exact encodeList_all inPathSet isSlash (fun _ hb => inPathSet_bound hb)
        pct_props.2.2.2.1 (fun k hk => (hexDigit_props k hk).2.2.2.1) raw
        (fun d hd _ => splitSlashes_no_slash_mem _ raw hraw d hd) c hc
  · intro q hq c hc
    rcases Option.map_eq_some'.mp hq with ⟨q0, _, rfl⟩
    exact encodeList_all inQuerySet inQuerySet (fun _ hb => inQuerySet_bound hb)
      pct_props.2.1 (fun k hk => (hexDigit_props k hk).2.1) q0 (fun _ _ hx => hx) c hc
  · intro f hf c hc
    rcases Option.map_eq_some'.mp hf with ⟨f0, _, rfl⟩
    exact encodeList_all inFragSet inFragSet (fun _ hb => inFragSet_bound hb)
      pct_props.2.2.1 (fun k hk => (hexDigit_props k hk).2.2.1) f0 (fun _ _ hx => hx) c hc

theorem parseHttpRest_wf {sch : Scheme} {cs : Chars} {u : HttpUrl}
    (h : parseHttpRest sch cs = some u) : URLWF u ∧ u.scheme = sch := by
  simp only [parseHttpRest] at h
  cases hau : parseAuthority sch (takeUntil isAuthorityEnd (cs.dropWhile isSlash)).1 with
  | none => rw [hau] at h; cases h
  | some hpp =>
    rw [hau] at h
    obtain ⟨host, port⟩ := hpp
    injection h with h
    subst h
    obtain ⟨hne, hlow, hport⟩ := parseAuthority_wf hau
    obtain ⟨h1, h2, h3, h4⟩ := parseTail_wf (takeUntil isAuthorityEnd (cs.dropWhile isSlash)).2
    exact ⟨⟨hne, hlow, hport, h1, h2, h3, h4⟩, rfl⟩

theorem parseURL_some_http {x : Chars} {u : HttpUrl}
    (h : parseURL x = some (.http u)) : URLWF u := by
  simp only [parseURL] at h
  cases hts : takeScheme x with
  | none => rw [hts] at h; cases h
  | some p =>
    rw [hts] at h
    obtain ⟨s1, r1⟩ := p
    replace h :
        (if lowerChars s1 = ['h', 't', 't', 'p'] then
          Option.map ParsedUrl.http (parseHttpRest .http r1)
        else if lowerChars s1 = ['h', 't', 't', 'p', 's'] then
          Option.map ParsedUrl.http (parseHttpRest .https r1)
        else some (.nonHttp (lowerChars s1))) = some (.http u) := h
    by_cases h4 : lowerChars s1 = ['h', 't', 't', 'p']
    · rw [if_pos h4] at h
      rcases Option.map_eq_some'.mp h with ⟨v, hv, he⟩
      injection he with he
      subst he
      exact (parseHttpRest_wf hv).1
    · rw [if_neg h4] at h
      by_cases h5 : lowerChars s1 = ['h', 't', 't', 'p', 's']
      · rw [if_pos h5] at h
        rcases Option.map_eq_some'.mp h with ⟨v, hv, he⟩
        injection he with he
        subst he
        exact (parseHttpRest_wf hv).1
      · rw [if_neg h5] at h
        injection h with h
        cases h

/-! ## Re-parsing a serialized URL -/

theorem encodeMap_id (l : List Chars)
    (h : ∀ s ∈ l, ∀ c ∈ s, inPathSet c = false) :
    l.map (encodeList inPathSet) = l := by
  induction l with
  | nil => rfl
  | cons s ss ih =>
    rw [List.map_cons, encodeList_id _ s (h s (List.mem_cons_self _ _)),
      ih (fun t ht => h t (List.mem_cons_of_mem _ ht))]

theorem splitSlashes_serPath_tail :
    ∀ (ss : List Chars) (s : Chars), (∀ c ∈ s, isSlash c = false) →
      (∀ t ∈ ss, ∀ c ∈ t, isSlash c = false) →
      splitSlashes (s ++ serPath ss) = s :: ss := by
  intro ss
  induction ss with
  | nil =>
    intro s hs _
    show splitSlashes (s ++ []) = [s]
    rw [List.append_nil]
    exact splitSlashes_of_no_slash s hs
  | cons t ts ih =>
    intro s hs hss
    show splitSlashes (s ++ ('/' :: (t ++ serPath ts))) = s :: t :: ts
    rw [splitSlashes_append_slash s _ hs,
      ih t (hss t (List.mem_cons_self _ _)) (fun r hr => hss r (List.mem_cons_of_mem _ hr))]

theorem serPath_not_delim {path : List Chars} (h : ∀ s ∈ path, goodSeg s) :
    ∀ c ∈ serPath path, decide (c = '#') = false ∧ decide (c = '?') = false := by
  intro c hc
  rcases mem_serPath path c hc with rfl | ⟨s, hs, hcs⟩
  · exact ⟨by decide, by decide⟩
  · have := not_inPathSet_toNat (((h s hs).1 c hcs).1)
    exact ⟨decide_char_eq_false 35 rfl (by omega), decide_char_eq_false 63 rfl (by omega)⟩

theorem parseAuthority_ser {sch : Scheme} {host : Chars} {port : Option Nat}
    (hne : host ≠ []) (hhost : ∀ c ∈ host, isLowerHostChar c = true)
    (hport : ∀ n, port = some n → n < 65536 ∧ n ≠ sch.defaultPort) :
    parseAuthority sch (host ++ serPort port) = some (host, port) := by
  have hclean : ∀ c ∈ host, (fun c => decide (c = ':')) c = false :=
    fun c hc => isLowerHostChar_not_colon (hhost c hc)
  cases port with
  | none =>
    simp only [serPort, List.append_nil, parseAuthority]
    rw [splitFirst_clean _ host hclean]
    rw [parseHost_of_lower hne hhost]
    rfl
  | some n =>
    obtain ⟨hdne, hdall, hdval⟩ := natToDigits_spec n
    obtain ⟨hb, hd⟩ := hport n rfl
    simp only [serPort, parseAuthority]
    rw [splitFirst_clean_append _ host hclean, splitFirst_hit _ (by decide)]
    simp only [List.append_nil]
    rw [parseHost_of_lower hne hhost]
    simp only [parsePortPart, parsePort]
    rw [if_neg (by simp [List.isEmpty_eq_false, hdne]),
      if_pos (List.all_eq_true.mpr hdall), hdval,
      if_neg (by omega), if_neg hd]

theorem parseTail_ser {path : List Chars} {query frag : Option Chars}
    (hne : path ≠ []) (hsegs : ∀ s ∈ path, goodSeg s)
    (hq : ∀ q, query = some q → ∀ c ∈ q, inQuerySet c = false)
    (hf : ∀ f, frag = some f → ∀ c ∈ f, inFragSet c = false) :
    parseTail (serPath path ++ (serQuery query ++ serFrag frag)) = (path, query, frag) := by
  have hpc := serPath_not_delim hsegs
  have hclean_hash : ∀ c ∈ serPath path ++ serQuery query, decide (c = '#') = false := by
    intro c hc
    rcases List.mem_append.mp hc with hc | hc
    · exact (hpc c hc).1
    · cases hqc : query with
      | none => rw [hqc] at hc; cases hc
      | some q =>
        rw [hqc] at hc
        rcases List.mem_cons.mp hc with rfl | hc
        · decide
        · have := not_inQuerySet_toNat (hq q hqc c hc)
          exact decide_char_eq_false 35 rfl (by omega)
  have h1 : splitFirst (fun c => c = '#')
      (serPath path ++ (serQuery query ++ serFrag frag)) =
      (serPath path ++ serQuery query, frag) := by
    cases hfg : frag with
    | none =>
      simp only [serFrag, List.append_nil]
      exact splitFirst_clean _ _ hclean_hash
    | some f =>
      simp only [serFrag]
      rw [← List.append_assoc, splitFirst_clean_append _ _ hclean_hash,
        splitFirst_hit _ (by decide)]
      simp
  have h2 : splitFirst (fun c => c = '?') (serPath path ++ serQuery query) =
      (serPath path, query) := by
    have hclean_q : ∀ c ∈ serPath path, (fun c => decide (c = '?')) c = false :=
      fun c hc => (hpc c hc).2
    cases hqc : query with
    | none =>
      simp only [serQuery, List.append_nil]
      exact splitFirst_clean _ _ hclean_q
    | some q =>
      simp only [serQuery]
      rw [splitFirst_clean_append _ _ hclean_q, splitFirst_hit _ (by decide)]
      simp
  have hcore : procSegs []
      ((splitSlashes (dropLeadSlash (serPath path))).map (encodeList inPathSet)) = path := by
    cases hp : path with
    | nil => exact absurd hp hne
    | cons s ss =>
      have hslash : ∀ t ∈ s :: ss, ∀ c ∈ t, isSlash c = false := by
        intro t ht c hc
        exact (((hp ▸ hsegs) t ht).1 c hc).2
      have hdrop : dropLeadSlash (serPath (s :: ss)) = s ++ serPath ss := by
        have he : dropLeadSlash ('/' :: (s ++ serPath ss)) =
            if isSlash '/' = true then s ++ serPath ss else '/' :: (s ++ serPath ss) := rfl
        show dropLeadSlash ('/' :: (s ++ serPath ss)) = s ++ serPath ss
        rw [he, if_pos (by decide)]
      rw [hdrop, splitSlashes_serPath_tail ss s (hslash s (List.mem_cons_self _ _))
        (fun t ht => hslash t (List.mem_cons_of_mem _ ht))]
      rw [encodeMap_id _ (fun t ht c hc => (((hp ▸ hsegs) t ht).1 c hc).1)]
      rw [procSegs_no_dots _ _ (fun t ht => ⟨((hp ▸ hsegs) t ht).2.1, ((hp ▸ hsegs) t ht).2.2⟩)]
      rfl
  simp only [parseTail, h1, h2, hcore]
  refine Prod.ext rfl (Prod.ext ?_ ?_)
  · cases hqc : query with
    | none => rfl
    | some q => simp [encodeList_id _ q (hq q hqc)]
  · cases hfg : frag with
    | none => rfl
    | some f => simp [encodeList_id _ f (hf f hfg)]

theorem parseHttpRest_ser {sch : Scheme} (host : Chars) (port : Option Nat)
    (path : List Chars) (query frag : Option Chars)
    (hne : host ≠ []) (hhost : ∀ c ∈ host, isLowerHostChar c = true)
    (hport : ∀ n, port = some n → n < 65536 ∧ n ≠ sch.defaultPort)
    (hpne : path ≠ []) (hsegs : ∀ s ∈ path, goodSeg s)
    (hq : ∀ q, query = some q → ∀ c ∈ q, inQuerySet c = false)
    (hf : ∀ f, frag = some f → ∀ c ∈ f, inFragSet c = false) :
    parseHttpRest sch
      ('/' :: '/' :: (host ++ (serPort port ++ (serPath path ++ (serQuery query ++ serFrag frag))))) =
      some ⟨sch, host, port, path, query, frag⟩ := by
  cases hpath : path with
  | nil => exact absurd hpath hpne
  | cons s ss =>
    subst hpath
    have hportclean : ∀ c ∈ serPort port, isAuthorityEnd c = false := by
      intro c hc
      cases hpt : port with
      | none => rw [hpt] at hc; cases hc
      | some n =>
        rw [hpt] at hc
        rcases List.mem_cons.mp hc with rfl | hc
        · decide
        · exact isDigitChar_not_authEnd ((natToDigits_spec n).2.1 c hc)
    have hdw :
        (('/' :: '/' :: (host ++ (serPort port ++
            (serPath (s :: ss) ++ (serQuery query ++ serFrag frag))))) :
          Chars).dropWhile isSlash =
        host ++ (serPort port ++ (serPath (s :: ss) ++ (serQuery query ++ serFrag frag))) := by
      rw [List.dropWhile_cons, if_pos (by decide), List.dropWhile_cons, if_pos (by decide)]
      cases hh : host with
      | nil => exact absurd hh hne
      | cons d ds =>
        subst hh
        have hd : isLowerHostChar d = true := hhost d (List.mem_cons_self _ _)
        rw [List.cons_append, List.dropWhile_cons,
          if_neg (by simp [isLowerHostChar_not_slash hd])]
    have hsp : serPath (s :: ss) ++ (serQuery query ++ serFrag frag) =
        '/' :: ((s ++ serPath ss) ++ (serQuery query ++ serFrag frag)) := rfl
    have htu : takeUntil isAuthorityEnd
        (host ++ (serPort port ++ (serPath (s :: ss) ++ (serQuery query ++ serFrag frag)))) =
        (host ++ serPort port, serPath (s :: ss) ++ (serQuery query ++ serFrag frag)) := by
      have hhc : ∀ c ∈ host, isAuthorityEnd c = false :=
        fun c hc => isLowerHostChar_not_authEnd (hhost c hc)
      rw [hsp, takeUntil_clean_append _ host hhc,
        takeUntil_clean_append _ (serPort port) hportclean,
        takeUntil_hit _ (by decide)]
      simp [List.append_assoc]
    simp only [parseHttpRest, hdw, htu]
    rw [parseAuthority_ser hne hhost hport]
    rw [parseTail_ser (by simp) hsegs hq hf]

theorem serURL_shape (u : HttpUrl) :
    serURL u = u.scheme.chars ++ ':' :: '/' :: '/' ::
      (u.host ++ (serPort u.port ++ (serPath u.path ++ (serQuery u.query ++ serFrag u.fragment)))) := by
  simp [serURL, List.append_assoc]

theorem takeScheme_ser (sch : Scheme) (r : Chars) :
    takeScheme (sch.chars ++ ':' :: r) = some (sch.chars, r) := by
  cases sch <;> rfl

theorem parse_serURL {u : HttpUrl} (h : URLWF u) :
    parseURL (serURL u) = some (.http u) := by
  obtain ⟨hne, hhost, hport, hpne, hsegs, hq, hf⟩ := h
  obtain ⟨sch, host, port, path, query, frag⟩ := u
  simp only [parseURL, serURL_shape, takeScheme_ser]
  cases sch with
  | http =>
    rw [if_pos (by decide)]
    rw [parseHttpRest_ser host port path query frag hne hhost hport hpne hsegs hq hf]
    rfl
  | https =>
    rw [if_neg (by decide), if_pos (by decide)]
    rw [parseHttpRest_ser host port path query frag hne hhost hport hpne hsegs hq hf]
    rfl

theorem scheme_chars_no_ws (sch : Scheme) : ∀ c ∈ sch.chars, isJsWs c = false := by
  cases sch <;> decide

theorem serURL_no_ws {u : HttpUrl} (h : URLWF u) :
    ∀ c ∈ serURL u, isJsWs c = false := by
  obtain ⟨hne, hhost, hport, hpne, hsegs, hq, hf⟩ := h
  intro c hc
  rw [serURL_shape] at hc
  rcases List.mem_append.mp hc with hc | hc
  · exact scheme_chars_no_ws _ c hc
  · rcases List.mem_cons.mp hc with rfl | hc
    · decide
    · rcases List.mem_cons.mp hc with rfl | hc
      · decide
      · rcases List.mem_cons.mp hc with rfl | hc
        · decide
        · rcases List.mem_append.mp hc with hc | hc
          · exact isLowerHostChar_not_ws (hhost c hc)
          · rcases List.mem_append.mp hc with hc | hc
            · cases hpt : u.port with
              | none => rw [hpt] at hc; cases hc
              | some n =>
                rw [hpt] at hc
                rcases List.mem_cons.mp hc with rfl | hc
                · decide
                · exact isDigitChar_not_ws ((natToDigits_spec n).2.1 c hc)
            · rcases List.mem_append.mp hc with hc | hc
              · rcases mem_serPath _ c hc with rfl | ⟨s, hs, hcs⟩
                · decide
                · exact not_inPathSet_not_ws (((hsegs s hs).1 c hcs).1)
              · rcases List.mem_append.mp hc with hc | hc
                · cases hqc : u.query with
                  | none => rw [hqc] at hc; cases hc
                  | some q =>
                    rw [hqc] at hc
                    rcases List.mem_cons.mp hc with rfl | hc
                    · decide
                    · exact not_inQuerySet_not_ws (hq q hqc c hc)
                · cases hfg : u.fragment with
                  | none => rw [hfg] at hc; cases hc
                  | some f =>
                    rw [hfg] at hc
                    rcases List.mem_cons.mp hc with rfl | hc
                    · decide
                    · exact not_inFragSet_not_ws (hf f hfg c hc)

theorem serURL_ne_nil (u : HttpUrl) : serURL u ≠ [] := by
  rw [serURL_shape]
  cases u.scheme <;> simp [Scheme.chars]

theorem startsWith_serURL (u : HttpUrl) :
    startsWithHttpSlashes (String.mk (serURL u)) = true := by
  obtain ⟨sch, host, port, path, query, frag⟩ := u
  cases sch <;> rfl

/-! ## Helper lemmas -/

/-- `hasSchemeColon s` holds when `s` opens with a URL scheme
(ASCII letter, scheme characters, then `:`). -/
def hasSchemeColon (s : String) : Bool := (takeScheme s.data).isSome

theorem noScheme_safeUrl (s : String) (h : hasSchemeColon s = false) :
    safeUrl s = none := by
  unfold hasSchemeColon at h
  unfold safeUrl parseURL
  cases ht : takeScheme s.data with
  | none => simp
  | some p => rw [ht] at h; simp at h

theorem dedupe_nodup_aux (links : List ProfileLink) :
    ∀ acc : List ProfileLink, ((acc.map (fun l => l.url)).Nodup) →
      (((links.foldl
        (fun acc l => if acc.any (fun x => x.url = l.url) then acc else acc ++ [l]) acc).map
          (fun l => l.url)).Nodup) := by
  induction links with
  | nil => intro acc h; simpa using h
  | cons l ls ih =>
    intro acc h
    simp only [List.foldl_cons]
    by_cases hc : acc.any (fun x => x.url = l.url)
    · rw [if_pos hc]; exact ih acc h
    · rw [if_neg hc]
      refine ih _ ?_
      have hnotin : l.url ∉ acc.map (fun x => x.url) := by
        intro hmem
        rcases List.mem_map.mp hmem with ⟨x, hx, hxeq⟩
        exact hc (List.any_eq_true.mpr ⟨x, hx, by simp [hxeq]⟩)
      simp only [List.map_append, List.map_cons, List.map_nil]
      exact List.Nodup.append h (by simp) (by
        intro a ha hb
        simp only [List.mem_singleton] at hb
        exact hnotin (hb ▸ ha))

theorem foldl_max_mem (l : List Int) (a : Int) :
    l.foldl max a = a ∨ l.foldl max a ∈ l := by
  induction l generalizing a with
  | nil => left; rfl
  | cons x xs ih =>
    rcases ih (max a x) with h | h
    · rcases max_choice a x with hm | hm
      · left; rw [List.foldl_cons, h, hm]
      · right; rw [List.foldl_cons, h, hm]; exact List.mem_cons_self _ _
    · right; exact List.mem_cons_of_mem _ h

theorem le_foldl_max (l : List Int) (a : Int) :
    a ≤ l.foldl max a ∧ ∀ x ∈ l, x ≤ l.foldl max a := by
  induction l generalizing a with
  | nil => exact ⟨le_refl _, by intro x hx; cases hx⟩
  | cons y ys ih =>
    refine ⟨le_trans (le_max_left a y) (ih (max a y)).1, ?_⟩
    intro x hx
    rcases List.mem_cons.mp hx with rfl | hx
    · exact le_trans (le_max_right a x) (ih (max a x)).1
    · exact (ih (max a y)).2 x hx

/-! ## Claim theorems -/

/-- C1 (counterexample): the claim says `toSafeUrl("ftp://x.com")` is
rejected; in fact the `/^https?:\/\//i` prefix test fails on it, so the gate
prepends `https://` and the URL parser accepts the result with host `ftp`
(the `ftp:` part becomes host plus empty port) and path `//x.com`. -/
theorem toSafeUrl_ftp_not_rejected :
    toSafeUrl (some (.str "ftp://x.com")) = some "https://ftp//x.com" := by decide

/-- C1 (amended): the URL gate rejects `"not a url"` and `""`; it accepts and
normalizes `"example.org/page"` to `"https://example.org/page"`; but
`"ftp://x.com"` is accepted as `"https://ftp//x.com"` (not rejected), and
`"https://example.org"` normalizes to `"https://example.org/"` (a trailing
slash is added by serialization), not to itself. -/
theorem toSafeUrl_gate_examples :
    toSafeUrl (some (.str "not a url")) = none ∧
    toSafeUrl (some (.str "")) = none ∧
    toSafeUrl (some (.str "example.org/page")) = some "https://example.org/page" ∧
    toSafeUrl (some (.str "ftp://x.com")) = some "https://ftp//x.com" ∧
    toSafeUrl (some (.str "https://example.org")) = some "https://example.org/" := by
  refine ⟨by decide, by decide, by decide, by decide, by decide⟩

/-- C2: a configured origin `"your-domain.com"` is rejected by site-origin
resolution — `resolveSiteUrl` behaves exactly as if `SITE_URL` were unset,
falling through to the host-derived origin and then the default constant —
while the same string passes the generic URL gate `toSafeUrl` as a profile
link. -/
theorem placeholder_rejection_asymmetry :
    (∀ r : Req, resolveSiteUrl { r with siteUrlEnv := some "your-domain.com" } =
        resolveSiteUrl { r with siteUrlEnv := none }) ∧
    resolveSiteUrl { siteUrlEnv := some "your-domain.com",
                     hostHeader := some "myhost.dev" } = "https://myhost.dev" ∧
    resolveSiteUrl { siteUrlEnv := some "your-domain.com" } = DEFAULT_SITE_URL ∧
    toSafeUrl (some (.str "your-domain.com")) = some "https://your-domain.com/" := by
  refine ⟨?_, by decide, by decide, by decide⟩
  intro r
  have h : normalizeOrigin (pickStr (some "your-domain.com")) true = "" := by decide
  have h0 : normalizeOrigin (pickStr none) true = "" := by decide
  simp [resolveSiteUrl, h, h0]

/-- C3 (counterexample): the current handler's `normalizeLanguage` ignores
`Accept-Language` entirely (a request with no `lang` parameter and
`Accept-Language: ja` resolves to `en`, where the specified precedence says
`ja`), and in the legacy variant an explicit `lang=en` does not take priority
over an `Accept-Language` containing `ja`. -/
theorem normalizeLanguage_ignores_accept_cx :
    normalizeLanguage { acceptLanguage := some "ja" } = .en ∧
    specLanguage { acceptLanguage := some "ja" } = .ja ∧
    normalizeLanguageLegacy { queryLang := some (.str "en"),
                              acceptLanguage := some "ja" } = .ja ∧
    specLanguage { queryLang := some (.str "en"), acceptLanguage := some "ja" } = .en := by
  refine ⟨by decide, by decide, by decide, by decide⟩

/-- C3 (amended): the current handler resolves language from the `lang` query
parameter alone — a case-insensitive `ja` prefix gives `ja` and anything else
gives `en`, with `Accept-Language` never consulted; the legacy variant gives
`ja` for a `ja`-prefixed `lang`, and otherwise returns `ja` exactly when the
`Accept-Language` header contains `ja` — so an explicit `lang=en` does not
take priority there. -/
theorem language_resolution_amended :
    (∀ r r' : Req, r.queryLang = r'.queryLang →
       normalizeLanguage r = normalizeLanguage r') ∧
    (∀ r : Req, startsWithL "ja" (strLower (queryLangRaw r.queryLang)) = true →
       normalizeLanguage r = .ja ∧ normalizeLanguageLegacy r = .ja) ∧
    (∀ r : Req, startsWithL "ja" (strLower (queryLangRaw r.queryLang)) = false →
       normalizeLanguage r = .en) ∧
    (∀ r : Req, startsWithL "ja" (strLower (queryLangRaw r.queryLang)) = false →
       normalizeLanguageLegacy r =
         (if containsL "ja".data (strLower (pickStr r.acceptLanguage)).data then .ja
          else .en)) := by
  refine ⟨?_, ?_, ?_, ?_⟩
  · intro r r' h; simp [normalizeLanguage, h]
  · intro r h; exact ⟨by simp [normalizeLanguage, h], by simp [normalizeLanguageLegacy, h]⟩
  · intro r h; simp [normalizeLanguage, h]
  · intro r h; simp [normalizeLanguageLegacy, h]

/-- C3 (amended, witness): instantiated at a request with `lang=JA-jp`
(discharging the prefix hypothesis) and at one with `lang=en` plus
`Accept-Language: ja` (discharging its negation). -/
theorem language_resolution_amended_witness :
    (normalizeLanguage { queryLang := some (.str "JA-jp") } = .ja ∧
      normalizeLanguageLegacy { queryLang := some (.str "JA-jp") } = .ja) ∧
    normalizeLanguageLegacy { queryLang := some (.str "en"),
                              acceptLanguage := some "ja" } =
      (if containsL "ja".data (strLower (pickStr (some "ja"))).data then Lang.ja
       else Lang.en) :=
  ⟨language_resolution_amended.2.1 { queryLang := some (.str "JA-jp") } (by decide),
   language_resolution_amended.2.2.2 { queryLang := some (.str "en"),
                                       acceptLanguage := some "ja" } (by decide)⟩

/-- C4: a résumé document with a `summary` field and neither `summary_en` nor
`summary_ja` resolves to the same paragraph list in English and Japanese. -/
theorem summary_legacy_shared_equal (d : ResumeRecord) (_hsum : d.summary ≠ none)
    (hen : d.summary_en = none) (hja : d.summary_ja = none) :
    summaryParagraphs (some d) .en = summaryParagraphs (some d) .ja := by
  simp [summaryParagraphs, hen, hja, orNull]

/-- C4 (witness): the shared-summary theorem instantiated at a two-paragraph
legacy document. -/
theorem summary_legacy_shared_equal_witness :
    summaryParagraphs (some { summary := some (.str "Hello\n\nWorld") }) .en =
      summaryParagraphs (some { summary := some (.str "Hello\n\nWorld") }) .ja :=
  summary_legacy_shared_equal { summary := some (.str "Hello\n\nWorld") }
    (by simp) rfl rfl

/-- C5: every section surviving `normalizeSections` has a non-empty resolved
title or non-empty resolved items (so a section empty in both languages is
excluded — and such a section's mapped entry is empty, as the second conjunct
shows); a section with a title only in `ja` and no items is included under
English rendering with the Japanese title; and a blank/absent `id` defaults
to `section-<index>` from the raw-list position. -/
theorem normalizeSections_filtering :
    (∀ doc lang ns, ns ∈ normalizeSections doc lang → ns.title ≠ "" ∨ ns.items ≠ []) ∧
    (∀ lang i s, pickO (orNull s.title_en s.title) = "" →
       pickO (orNull s.title_ja s.title) = "" →
       toList (orNull s.items_en s.items) = [] →
       toList (orNull s.items_ja s.items) = [] →
       (normalizeSectionEntry lang i s).title = "" ∧
         (normalizeSectionEntry lang i s).items = []) ∧
    (normalizeSections (some { sections := some [{ title_ja := some (.str "経歴") }] }) .en =
       [{ id := "section-0", title := "経歴", items := [] }]) ∧
    (∀ lang i s, pickO s.id = "" →
       (normalizeSectionEntry lang i s).id = "section-" ++ toString i) := by
  refine ⟨?_, ?_, by decide, ?_⟩
  · intro doc lang ns h
    cases doc with
    | none => simp [normalizeSections] at h
    | some d =>
      cases hs : d.sections with
      | none => simp [normalizeSections, hs] at h
      | some secs =>
        simp only [normalizeSections, hs, List.mem_filter] at h
        rcases h with ⟨-, hkeep⟩
        simp only [Bool.or_eq_true] at hkeep
        rcases hkeep with h1 | h2
        · exact Or.inl (by simpa using h1)
        · refine Or.inr ?_
          intro he
          rw [he] at h2
          simp at h2
  · intro lang i s h1 h2 h3 h4
    cases lang <;> simp [normalizeSectionEntry, h1, h2, h3, h4]
  · intro lang i s h
    simp [normalizeSectionEntry, h]

/-- C5 (witness): the empty-section conjunct instantiated at the empty record
and index 5, and the id-default conjunct at index 7. -/
theorem normalizeSections_filtering_witness :
    ((normalizeSectionEntry .en 5 {}).title = "" ∧
      (normalizeSectionEntry .en 5 {}).items = []) ∧
    (normalizeSectionEntry .ja 7 {}).id = "section-" ++ toString 7 :=
  ⟨normalizeSections_filtering.2.1 .en 5 {} (by decide) (by decide) (by decide) (by decide),
   normalizeSections_filtering.2.2.2 .ja 7 {} (by decide)⟩

/-- C6: with a known-field GitHub URL and a `sameAs` list containing the same
URL, the resolved profile links contain exactly the single `GitHub`-labelled
entry; and deduplication by URL is genuine — the URLs of any deduplicated
list are pairwise distinct (first occurrence wins by construction of the
fold). -/
theorem profileLinks_dedup_github :
    profileLinks (some { githubUrl := some (.str "https://github.com/x"),
                         sameAs := some (.list [.str "https://github.com/x"]) }) =
      [{ label := "GitHub", url := "https://github.com/x" }] ∧
    ∀ links : List ProfileLink,
      ((dedupeProfileLinks links).map (fun l => l.url)).Nodup := by
  refine ⟨by decide, ?_⟩
  intro links
  exact dedupe_nodup_aux links [] (by simp)

/-- C7: the PDF handler responds 404 with the plain-text "not configured"
message exactly when no URL-gated PDF URL resolves, responds with a 302
redirect to the resolved URL otherwise, and the other-language fallback is
applied to the safety-checked result: when the primary-language raw URL fails
the gate, the result is exactly the gate applied to the fallback raw URL. -/
theorem resumePdf_response_spec :
    (∀ doc req,
       (resumePdfResponse doc req = .plainText 404 "Resume PDF is not configured." ↔
         preferredResumeUrl doc (normalizeLanguage req) = none) ∧
       ∀ u, (resumePdfResponse doc req = .redirect 302 u ↔
         preferredResumeUrl doc (normalizeLanguage req) = some u)) ∧
    (∀ d lang, safeUrl (primaryRawUrl d lang) = none →
       preferredResumeUrl (some d) lang = safeUrl (fallbackRawUrl d lang)) := by
  constructor
  · intro doc req
    cases h : preferredResumeUrl doc (normalizeLanguage req) <;>
      simp [resumePdfResponse, h]
  · intro d lang h
    simp [preferredResumeUrl, h]

/-- C7 (witness): a document whose English URL is `ftp://x.pdf` (rejected by
the gate) falls back to the safety-checked Japanese URL. -/
theorem resumePdf_response_spec_witness :
    preferredResumeUrl
        (some { url_en := some (.str "ftp://x.pdf"),
                url_ja := some (.str "https://cdn.example.net/x.pdf") }) Lang.en =
      safeUrl (fallbackRawUrl
        { url_en := some (.str "ftp://x.pdf"),
          url_ja := some (.str "https://cdn.example.net/x.pdf") } Lang.en) :=
  resumePdf_response_spec.2
    { url_en := some (.str "ftp://x.pdf"),
      url_ja := some (.str "https://cdn.example.net/x.pdf") } Lang.en (by decide)

/-- C8: a project document with `updatedAt = "2024-01-01"` and
`github_pushed_at = "2024-06-01"` gets `lastmod = "2024-06-01"`; a document
with no timestamp source gets the generation-time fallback date; an
unparsable source is excluded from the max exactly as if it were absent
(never treated as epoch zero); and whenever a lastmod resolves it is the
maximum of the parseable timestamp sources. -/
theorem sitemap_lastmod_max :
    (projectLastmod { updatedAt := some (.str "2024-01-01"),
                      github_pushed_at := some (.str "2024-06-01") } "2024-09-30" =
       "2024-06-01") ∧
    (∀ fb, projectLastmod {} fb = fb) ∧
    (∀ (s : ProjectSnapshot) (fb : String) (v : Option TsVal), dateMs v = none →
       projectLastmod { s with updatedAt := v } fb =
         projectLastmod { s with updatedAt := none } fb) ∧
    (∀ (s : ProjectSnapshot) (d : String), snapshotLastmod s = some d →
       ∃ t ∈ (tsSources s).filterMap dateMs, d = msToIsoDate t ∧
         ∀ x ∈ (tsSources s).filterMap dateMs, x ≤ t) := by
  refine ⟨by decide, ?_, ?_, ?_⟩
  · intro fb; rfl
  · intro s fb v h
    have hmid : ∀ (w : Option TsVal), dateMs w = none → ∀ l1 l2 : List (Option TsVal),
        (l1 ++ w :: l2).filterMap dateMs = (l1 ++ l2).filterMap dateMs := by
      intro w hw l1 l2
      simp [List.filterMap_append, List.filterMap_cons, hw]
    have hl : List.filterMap dateMs (tsSources { s with updatedAt := v }) =
        List.filterMap dateMs (tsSources { s with updatedAt := none }) := by
      show List.filterMap dateMs
          ([s.updateTime, s.createTime] ++ v ::
            [s.updated_at, s.github_synced_at, s.github_updated_at,
             s.github_pushed_at, s.pushed_at, s.createdAt, s.created_at]) =
        List.filterMap dateMs
          ([s.updateTime, s.createTime] ++ (none : Option TsVal) ::
            [s.updated_at, s.github_synced_at, s.github_updated_at,
             s.github_pushed_at, s.pushed_at, s.createdAt, s.created_at])
      rw [hmid v h, hmid none rfl]
    simp [projectLastmod, snapshotLastmod, latestIsoDate, hl]
  · intro s d h
    unfold snapshotLastmod latestIsoDate at h
    cases hfm : (tsSources s).filterMap dateMs with
    | nil => rw [hfm] at h; simp at h
    | cons t ts =>
      rw [hfm] at h
      simp only [Option.some_inj] at h
      refine ⟨ts.foldl max t, ?_, h.symm, ?_⟩
      · rcases foldl_max_mem ts t with he | he
        · rw [he]; exact List.mem_cons_self _ _
        · exact List.mem_cons_of_mem _ he
      · intro x hx
        rcases List.mem_cons.mp hx with rfl | hx
        · exact (le_foldl_max ts x).1
        · exact (le_foldl_max ts t).2 x hx

/-- C8 (witness): the exclusion conjunct instantiated with an unparsable
`updatedAt` string next to a parseable `github_pushed_at`. -/
theorem sitemap_lastmod_max_witness :
    projectLastmod { github_pushed_at := some (.str "2024-06-01"),
                     updatedAt := some (.str "not-a-date") } "2024-09-30" =
      projectLastmod { github_pushed_at := some (.str "2024-06-01"),
                       updatedAt := none } "2024-09-30" :=
  sitemap_lastmod_max.2.2.1 { github_pushed_at := some (.str "2024-06-01") }
    "2024-09-30" (some (.str "not-a-date")) (by decide)

theorem safeUrl_roundtrip {w y : String} (h : safeUrl w = some y) :
    safeUrl y = some y ∧ (∀ c ∈ y.data, isJsWs c = false) ∧ y ≠ "" ∧
    startsWithHttpSlashes y = true := by
  simp only [safeUrl] at h ⊢
  cases hp : parseURL w.data with
  | none => rw [hp] at h; exact Option.noConfusion h
  | some pu =>
    cases pu with
    | nonHttp s => rw [hp] at h; exact Option.noConfusion h
    | http u =>
      rw [hp] at h
      injection h with h
      have hwf := parseURL_some_http hp
      subst h
      refine ⟨?_, serURL_no_ws hwf,
        fun he => serURL_ne_nil u (congrArg String.data he), startsWith_serURL u⟩
      rw [show (String.mk (serURL u)).data = serURL u from rfl, parse_serURL hwf]

/-- C9: the URL gate is idempotent on accepted inputs — whenever `toSafeUrl`
accepts a value and returns `y`, running the gate again on `y` returns `y`
unchanged (the serialized form is already trimmed, carries the `http(s)://`
prefix, and re-parses to the same URL record). -/
theorem toSafeUrl_idempotent (x : Option Val) (y : String)
    (h : toSafeUrl x = some y) : toSafeUrl (some (.str y)) = some y := by
  simp only [toSafeUrl] at h
  by_cases hraw : pickO x = ""
  · rw [if_pos hraw] at h; exact Option.noConfusion h
  · rw [if_neg hraw] at h
    obtain ⟨hs, hws, hne2, hpre⟩ := safeUrl_roundtrip h
    have htrim : pickO (some (.str y)) = y := by
      show jsTrim y = y
      unfold jsTrim
      rw [trimCharsL_eq_of_no_ws _ hws]
    simp only [toSafeUrl, htrim]
    rw [if_neg hne2, if_pos hpre]
    exact hs

/-- C9 (witness): the idempotence theorem applied to the accepted input
`"example.org/page"`, whose gated form is `"https://example.org/page"`. -/
theorem toSafeUrl_idempotent_witness :
    toSafeUrl (some (.str "https://example.org/page")) =
      some "https://example.org/page" :=
  toSafeUrl_idempotent (some (.str "example.org/page")) "https://example.org/page"
    (by decide)

/-- C10 (counterexample): the claim says any configured PDF URL value lacking
an explicit `http://`/`https://` prefix yields a 404; but
`"https:cdn/x.pdf"` has no such prefix (the `/^https?:\/\//i` test fails) and
is still accepted, because the URL parser tolerates a missing `//` after a
special scheme — the endpoint redirects instead of responding 404. -/
theorem preferredResumeUrl_scheme_cx :
    startsWithHttpSlashes "https:cdn/x.pdf" = false ∧
    preferredResumeUrl (some { url_en := some (.str "https:cdn/x.pdf") }) .en =
      some "https://cdn/x.pdf" ∧
    resumePdfResponse (some { url_en := some (.str "https:cdn/x.pdf") }) {} =
      .redirect 302 "https://cdn/x.pdf" := by
  refine ⟨by decide, by decide, by decide⟩

/-- C10 (amended): `preferredResumeUrl` never auto-prepends a scheme: if every
résumé URL value (after `pick`) lacks a URL scheme altogether — no leading
ASCII-letter scheme run followed by `:`, e.g. `"cdn/x.pdf"` — then both
languages resolve no PDF URL and the PDF endpoint responds 404 with the
"not configured" message.  (A schemeful value without the `//`, such as
`"https:cdn/x.pdf"`, is still accepted by the parser, which is the one
correction to the claim.) -/
theorem preferredResumeUrl_no_autoprepend (d : ResumeRecord)
    (h1 : hasSchemeColon (pickO (orNull d.url_en d.url)) = false)
    (h2 : hasSchemeColon (pickO (orNull d.url_ja d.url)) = false) :
    (∀ lang, preferredResumeUrl (some d) lang = none) ∧
    ∀ req, resumePdfResponse (some d) req =
      .plainText 404 "Resume PDF is not configured." := by
  have hen := noScheme_safeUrl _ h1
  have hja := noScheme_safeUrl _ h2
  have hall : ∀ lang, preferredResumeUrl (some d) lang = none := by
    intro lang
    cases lang <;> simp [preferredResumeUrl, primaryRawUrl, fallbackRawUrl, hen, hja]
  refine ⟨hall, ?_⟩
  intro req
  simp [resumePdfResponse, hall (normalizeLanguage req)]

/-- C10 (amended, witness): instantiated at a document configuring only
`url = "cdn/x.pdf"`. -/
theorem preferredResumeUrl_no_autoprepend_witness :
    preferredResumeUrl (some { url := some (.str "cdn/x.pdf") }) Lang.en = none ∧
    resumePdfResponse (some { url := some (.str "cdn/x.pdf") }) {} =
      .plainText 404 "Resume PDF is not configured." :=
  ⟨(preferredResumeUrl_no_autoprepend { url := some (.str "cdn/x.pdf") }
      (by decide) (by decide)).1 Lang.en,
   (preferredResumeUrl_no_autoprepend { url := some (.str "cdn/x.pdf") }
      (by decide) (by decide)).2 {}⟩

end Rosenau
